import Mathlib

/-!
Shallow embedding of the JavaScript minifier engine (src/main.go) over
`List Char`.  Each regular-expression rewriting pass of the Go code is
embedded as an explicit left-to-right scanner with the same leftmost-first
match semantics as Go's `regexp.ReplaceAllString` / `ReplaceAllStringFunc`.
Recursion is made structural with an explicit fuel parameter; a scanner
returns `none` only when fuel runs out, and every top-level call supplies
`length + 1` fuel, which is proved sufficient (the totality claim).
Where the Go code iterates over a `map` (whose iteration order is
unspecified), the embedding uses insertion order and the order-sensitive
claims quantify over the order explicitly.
-/

/-- Character class of Go's regexp `\s` (RE2 Perl class): space, tab,
newline, carriage return and form feed. -/
def isSpace (c : Char) : Bool :=
  c = ' ' || c = '\t' || c = '\n' || c = '\r' || c = '\x0c'

/-- Character class of Go's regexp `\w`, used by the word-boundary `\b`:
ASCII letters, digits and underscore. -/
def isWordChar (c : Char) : Bool :=
  ('a' ≤ c && c ≤ 'z') || ('A' ≤ c && c ≤ 'Z') || ('0' ≤ c && c ≤ '9') || c = '_'

/-- First-character class of the identifier pattern `[a-zA-Z_$]`
in the declaration regex of `shortenVariableNames` (src/main.go line 71). -/
def isIdentStart (c : Char) : Bool :=
  ('a' ≤ c && c ≤ 'z') || ('A' ≤ c && c ≤ 'Z') || c = '_' || c = '$'

/-- Continuation class of the identifier pattern `[a-zA-Z0-9_$]`. -/
def isIdentChar (c : Char) : Bool :=
  isIdentStart c || ('0' ≤ c && c ≤ '9')

/-- Single-quote character, written by code point to keep string literals
free of quote escapes. -/
def squote : Char := Char.ofNat 39

/-- Dollar character. -/
def dollar : Char := '$'

/-- Test whether the head of a list satisfies a predicate (false on nil). -/
def headSat (p : Char → Bool) : List Char → Bool
  | [] => false
  | c :: _ => p c

/-- Whole-string occurrence test: `occurs pat l` is true iff `pat` appears
as a contiguous substring of `l`. -/
def occurs (pat : List Char) : List Char → Bool
  | [] => pat.isEmpty
  | c :: rest => pat.isPrefixOf (c :: rest) || occurs pat rest

/-- Number of positions of `text` at which `pat` starts as a substring. -/
def countOcc (pat text : List Char) : Nat :=
  ((List.range (text.length + 1)).filter (fun i => pat.isPrefixOf (text.drop i))).length

/-- Digit characters used by decimal formatting. -/
def digitsList : List Char := "0123456789".data

/-- Fuel-driven helper for decimal formatting of a natural number,
modelling Go's `%d` verb of `fmt.Sprintf`. -/
def natDigitsAux : Nat → Nat → List Char → List Char
  | 0, _, acc => acc
  | f+1, n, acc =>
    if n < 10 then digitsList.getD n '0' :: acc
    else natDigitsAux f (n / 10) (digitsList.getD (n % 10) '0' :: acc)

/-- Decimal digit string of a natural number, most significant digit
first, as printed by Go's `%d`. -/
def natDigits (n : Nat) : List Char := natDigitsAux (n + 1) n []

/-- Numeric value of a decimal digit character. -/
def digitVal (c : Char) : Nat := c.toNat - 48

/-- Value of a decimal digit string, used to prove `natDigits` injective. -/
def natVal (l : List Char) : Nat := l.foldl (fun a c => 10 * a + digitVal c) 0

/-- Alphabet string used by `generateVarName` (src/main.go line 49). -/
def alphabetList : List Char := "abcdefghijklmnopqrstuvwxyz".data

/-- Embedding of `Minifier.generateVarName` (src/main.go lines 48-57).
The method reads the current counter, returns the generated name and
leaves the counter incremented; here the counter is passed and returned
explicitly.  `alphabet[varCounter%26]` is total since the index is < 26;
`getD` supplies an irrelevant default. -/
def generateVarName (varCounter : Nat) : List Char × Nat :=
  let suffix := varCounter / 26
  let ch := alphabetList.getD (varCounter % 26) 'a'
  if suffix = 0 then ([ch], varCounter + 1)
  else (ch :: natDigits suffix, varCounter + 1)

/-- Pass `//.*` → `` (src/main.go lines 114-115): from each `//` marker,
delete up to but excluding the next newline (Go's `.` does not match
newline). -/
def stripLineComments : Nat → List Char → Option (List Char)
  | 0, _ => none
  | _+1, [] => some []
  | f+1, c :: rest =>
    if c = '/' && headSat (fun d => d = '/') rest then
      stripLineComments f (rest.dropWhile (fun x => !(x = '\n')))
    else
      (stripLineComments f rest).map (fun r => c :: r)

/-- Scan for the first block-comment closer `*/`, returning the consumed
prefix (closer included) and the remainder. -/
def splitClose : List Char → Option (List Char × List Char)
  | [] => none
  | c :: rest =>
    if c = '*' && headSat (fun d => d = '/') rest then
      some (['*', '/'], rest.tail)
    else
      (splitClose rest).map (fun p => (c :: p.1, p.2))

/-- Pass `/\*[\s\S]*?\*/` → `` (src/main.go lines 118-119): non-greedy
block comment removal; a `/*` with no later `*/` is left in place. -/
def stripBlockComments : Nat → List Char → Option (List Char)
  | 0, _ => none
  | _+1, [] => some []
  | f+1, c :: rest =>
    if c = '/' && headSat (fun d => d = '*') rest then
      match splitClose rest.tail with
      | some (_, rem) => stripBlockComments f rem
      | none => (stripBlockComments f rest).map (fun r => c :: r)
    else
      (stripBlockComments f rest).map (fun r => c :: r)

/-- Pass `^\s+|\s+$` → `` (src/main.go lines 122-123).  Without the
multiline flag the anchors bind to the whole text, so only the leading
and trailing whitespace runs of the buffer are removed. -/
def trimEdges (l : List Char) : List Char :=
  ((l.dropWhile isSpace).reverse.dropWhile isSpace).reverse

/-- Pass `\s{2,}` → `" "` (src/main.go lines 126-127): every run of two
or more whitespace characters collapses to a single space; single
whitespace characters are untouched. -/
def collapseSpaces : Nat → List Char → Option (List Char)
  | 0, _ => none
  | _+1, [] => some []
  | f+1, c :: rest =>
    if isSpace c && headSat isSpace rest then
      (collapseSpaces f (rest.dropWhile isSpace)).map (fun r => ' ' :: r)
    else
      (collapseSpaces f rest).map (fun r => c :: r)

/-- Pass `\s*X\s*` → `repl` for a single significant character `X`
(src/main.go lines 130-134 and 152-164).  A match is a maximal
whitespace run, the character, and a maximal whitespace run; the
replacement text `repl` is inserted verbatim.  The operator loop of the
source passes its pre-escaped pattern string (e.g. `\+`) as the
replacement, where the backslash is a literal character, hence `repl` is
a list and not always `[op]`. -/
def opPass (op : Char) (repl : List Char) : Nat → List Char → Option (List Char)
  | 0, _ => none
  | _+1, [] => some []
  | f+1, c :: rest =>
    if c = op then
      (opPass op repl f (rest.dropWhile isSpace)).map (fun r => repl ++ r)
    else if isSpace c then
      if headSat (fun d => d = op) (rest.dropWhile isSpace) then
        (opPass op repl f (((rest.dropWhile isSpace).tail).dropWhile isSpace)).map
          (fun r => repl ++ r)
      else if (rest.dropWhile isSpace).isEmpty then
        some (c :: rest)
      else
        (opPass op repl f (rest.dropWhile isSpace)).map
          (fun r => c :: rest.takeWhile isSpace ++ r)
    else
      (opPass op repl f rest).map (fun r => c :: r)

/-- Operator list of src/main.go line 130 with the replacement text each
entry passes to `ReplaceAllString`.  In the Go replacement string a
backslash is an ordinary character, so the escaped entries insert a
literal backslash before the operator. -/
def opList : List (Char × List Char) :=
  [('+', ['\\', '+']), ('-', ['-']), ('*', ['\\', '*']), ('/', ['/']),
   ('=', ['=']), ('<', ['<']), ('>', ['>']), ('!', ['!']),
   ('?', ['\\', '?']), (':', [':']), ('&', ['&']), ('|', ['\\', '|']),
   (';', [';']), (',', [','])]

/-- Sequential application of the operator passes in source order. -/
def opFold : List (Char × List Char) → List Char → Option (List Char)
  | [], l => some l
  | (c, r) :: rest, l => (opPass c r (l.length + 1) l).bind (opFold rest)

/-- Pass `;;+` → `;` (src/main.go lines 137-138). -/
def semiPass : Nat → List Char → Option (List Char)
  | 0, _ => none
  | _+1, [] => some []
  | f+1, c :: rest =>
    if c = ';' && headSat (fun d => d = ';') rest then
      (semiPass f (rest.dropWhile (fun d => d = ';'))).map (fun r => ';' :: r)
    else
      (semiPass f rest).map (fun r => c :: r)

/-- Keyword characters of the `function\s+` pass. -/
def kwFunction : List Char := "function".data

/-- Pass `function\s+` → `function` (src/main.go lines 141-142): any
whitespace run following the literal word `function` is deleted (no word
boundary is required by the pattern). -/
def functionPass : Nat → List Char → Option (List Char)
  | 0, _ => none
  | _+1, [] => some []
  | f+1, c :: rest =>
    if kwFunction.isPrefixOf (c :: rest) then
      if headSat isSpace ((c :: rest).drop 8) then
        (functionPass f (((c :: rest).drop 8).dropWhile isSpace)).map
          (fun r => kwFunction ++ r)
      else
        (functionPass f ((c :: rest).drop 8)).map (fun r => kwFunction ++ r)
    else
      (functionPass f rest).map (fun r => c :: r)

/-- Pass `\n+` → `` (src/main.go lines 145-146): every newline is
deleted. -/
def newlinePass : Nat → List Char → Option (List Char)
  | 0, _ => none
  | _+1, [] => some []
  | f+1, c :: rest =>
    if c = '\n' then
      newlinePass f (rest.dropWhile (fun d => d = '\n'))
    else
      (newlinePass f rest).map (fun r => c :: r)

/-- Pass `,\s+` → `,` (src/main.go lines 149-150). -/
def commaPass : Nat → List Char → Option (List Char)
  | 0, _ => none
  | _+1, [] => some []
  | f+1, c :: rest =>
    if c = ',' && headSat isSpace rest then
      (commaPass f (rest.dropWhile isSpace)).map (fun r => ',' :: r)
    else
      (commaPass f rest).map (fun r => c :: r)

/-- Bracket characters of the six `\s*X\s*` passes of src/main.go lines
152-164, in source order. -/
def bracketsList : List Char := ['\x7b', '\x7d', '[', ']', '(', ')']

/-- Sequential application of the six bracket passes. -/
def bracketFold : List Char → List Char → Option (List Char)
  | [], l => some l
  | b :: rest, l => (opPass b [b] (l.length + 1) l).bind (bracketFold rest)

/-- Scan for the closing quote `q`, returning the content before it and
the remainder after it; `none` when the quote never closes (the regex
`"[^"]*"` then has no match at this position). -/
def splitQuote (q : Char) : List Char → Option (List Char × List Char)
  | [] => none
  | c :: rest =>
    if c = q then some ([], rest)
    else (splitQuote q rest).map (fun p => (c :: p.1, p.2))

/-- Placeholder text `__STR_<k>__` produced by the shielding step
(src/main.go line 65). -/
def placeholderChars (k : Nat) : List Char :=
  "__STR_".data ++ natDigits k ++ "__".data

/-- Shielding pass of `shortenVariableNames` (src/main.go lines 62-68):
the regex `"[^"]*"|'[^']*'` replaces each quoted literal with
`__STR_<k>__` where `k` is the table size at that moment; the table maps
the placeholder to the exact literal text, quotes included.  The table
is returned in insertion order. -/
def shieldStrings : Nat → Nat → List Char → Option (List Char × List (List Char × List Char))
  | 0, _, _ => none
  | _+1, _, [] => some ([], [])
  | f+1, k, c :: rest =>
    if c = '"' || c = squote then
      match splitQuote c rest with
      | some (content, rem) =>
        (shieldStrings f (k + 1) rem).map
          (fun p => (placeholderChars k ++ p.1,
                     (placeholderChars k, c :: content ++ [c]) :: p.2))
      | none => (shieldStrings f k rest).map (fun p => (c :: p.1, p.2))
    else
      (shieldStrings f k rest).map (fun p => (c :: p.1, p.2))

/-- Keyword detection for the declaration regex alternation
`(var|let|const)`; the three keywords begin with distinct letters so at
most one alternative can match at a position. -/
def kwSplit (l : List Char) : Option (List Char × List Char) :=
  if "var".data.isPrefixOf l then some ("var".data, l.drop 3)
  else if "let".data.isPrefixOf l then some ("let".data, l.drop 3)
  else if "const".data.isPrefixOf l then some ("const".data, l.drop 5)
  else none

/-- Remove trailing dollar characters, implementing the backtracking of
the trailing `\b` of the declaration regex: `$` is not a word character,
so the greedy identifier run gives back trailing dollars until the
boundary holds. -/
def stripTrailingDollar (l : List Char) : List Char :=
  (l.reverse.dropWhile (fun c => c = dollar)).reverse

/-- Identifier capture `([a-zA-Z_$][a-zA-Z0-9_$]*)\b` at the head of the
buffer: greedy identifier characters, then trailing dollars are given
back for the word boundary.  Returns the captured identifier and the
remainder (given-back dollars included); `none` when no identifier with
a valid trailing boundary starts here. -/
def identSplit (l : List Char) : Option (List Char × List Char) :=
  match l with
  | [] => none
  | c :: rest =>
    if isIdentStart c then
      if (stripTrailingDollar (c :: rest.takeWhile isIdentChar)).isEmpty then none
      else some (stripTrailingDollar (c :: rest.takeWhile isIdentChar),
        (c :: rest.takeWhile isIdentChar).drop
            (stripTrailingDollar (c :: rest.takeWhile isIdentChar)).length
          ++ rest.dropWhile isIdentChar)
    else none

/-- Association-list lookup in the rename table. -/
def vmLookup (vm : List (List Char × List Char)) (key : List Char) : Option (List Char) :=
  (vm.find? (fun p => p.1 == key)).map (fun p => p.2)

/-- Declaration pass of `shortenVariableNames` (src/main.go lines 71-82):
the regex `\b(var|let|const)\s+([a-zA-Z_$][a-zA-Z0-9_$]*)\b` is replaced
by `keyword + " " + short`, allocating a fresh short name for an
identifier not yet in the table.  `prev` records whether the previous
character of the original buffer is a word character (for the leading
`\b`); the rename table `vm` is kept in insertion order together with
the name counter. -/
def declPass : Nat → List (List Char × List Char) → Nat → Bool → List Char →
    Option (List Char × List (List Char × List Char) × Nat)
  | 0, _, _, _, _ => none
  | _+1, vm, cnt, _, [] => some ([], vm, cnt)
  | f+1, vm, cnt, prev, c :: rest =>
    if prev = false then
      match kwSplit (c :: rest) with
      | some (kw, afterKw) =>
        if headSat isSpace afterKw then
          match identSplit (afterKw.dropWhile isSpace) with
          | some (ident, remainder) =>
            match vmLookup vm ident with
            | some short =>
              (declPass f vm cnt true remainder).map
                (fun r => (kw ++ ' ' :: short ++ r.1, r.2.1, r.2.2))
            | none =>
              (declPass f (vm ++ [(ident, (generateVarName cnt).1)]) (cnt + 1) true remainder).map
                (fun r => (kw ++ ' ' :: (generateVarName cnt).1 ++ r.1, r.2.1, r.2.2))
          | none =>
            (declPass f vm cnt (isWordChar c) rest).map
              (fun r => (c :: r.1, r.2.1, r.2.2))
        else
          (declPass f vm cnt (isWordChar c) rest).map
            (fun r => (c :: r.1, r.2.1, r.2.2))
      | none =>
        (declPass f vm cnt (isWordChar c) rest).map
          (fun r => (c :: r.1, r.2.1, r.2.2))
    else
      (declPass f vm cnt (isWordChar c) rest).map
        (fun r => (c :: r.1, r.2.1, r.2.2))

/-- Whole-word replacement `\b orig \b` → `short` for an identifier made
of word characters (src/main.go lines 86-87).  `prev` tracks the word
status of the previous original character for the leading boundary; the
trailing boundary requires the next character to be a non-word character
or the end. -/
def wholeWordReplace (orig short : List Char) : Nat → Bool → List Char → Option (List Char)
  | 0, _, _ => none
  | _+1, _, [] => some []
  | f+1, prev, c :: rest =>
    if orig.isEmpty then some (c :: rest)
    else if prev = false && orig.isPrefixOf (c :: rest) &&
        !(headSat isWordChar ((c :: rest).drop orig.length)) then
      (wholeWordReplace orig short f true ((c :: rest).drop orig.length)).map
        (fun r => short ++ r)
    else
      (wholeWordReplace orig short f (isWordChar c) rest).map (fun r => c :: r)

/-- Usage substitution for one rename-table entry.  When the original
identifier contains a dollar character, the compiled pattern
`\b orig \b` contains a `$` end-of-text anchor in the middle (the
identifier is interpolated into the pattern unquoted), so the regex can
never match and the buffer is unchanged. -/
def usageApply (code : List Char) (p : List Char × List Char) : Option (List Char) :=
  if p.1.contains dollar then some code
  else wholeWordReplace p.1 p.2 (code.length + 1) false code

/-- Usage-substitution loop of src/main.go lines 85-88 applied in the
given table order (Go iterates the map in unspecified order). -/
def substUsages : List (List Char × List Char) → List Char → Option (List Char)
  | [], code => some code
  | p :: rest, code => (usageApply code p).bind (substUsages rest)

/-- Embedding of `strings.Replace(code, pat, repl, -1)`: replace every
leftmost non-overlapping occurrence of `pat`.  The patterns used by the
minifier (placeholders) are never empty; the empty-pattern guard keeps
the scanner well-defined and is unreachable from `Minify`. -/
def replaceSub (pat repl : List Char) : Nat → List Char → Option (List Char)
  | 0, _ => none
  | _+1, [] => some []
  | f+1, c :: rest =>
    if pat.isEmpty then some (c :: rest)
    else if pat.isPrefixOf (c :: rest) then
      (replaceSub pat repl f ((c :: rest).drop pat.length)).map (fun r => repl ++ r)
    else
      (replaceSub pat repl f rest).map (fun r => c :: r)

/-- Restore loop of src/main.go lines 91-93 applied in table insertion
order (Go iterates the map in unspecified order). -/
def unshieldAll : List (List Char × List Char) → List Char → Option (List Char)
  | [], code => some code
  | (p, lit) :: rest, code =>
    (replaceSub p lit (code.length + 1) code).bind (unshieldAll rest)

/-- Embedding of `Minifier.shortenVariableNames` (src/main.go lines
60-96): shield string literals, rewrite declarations, substitute usages
for every table entry, restore the literals. -/
def shortenVariableNames (code : List Char) : Option (List Char) :=
  (shieldStrings (code.length + 1) 0 code).bind (fun sp =>
    (declPass (sp.1.length + 1) [] 0 false sp.1).bind (fun dp =>
      (substUsages dp.2.1 dp.1).bind (fun u =>
        unshieldAll sp.2 u)))

/-- License extraction regex `^/\*![\s\S]*?\*/` (src/main.go line 105):
anchored at the start of the buffer, non-greedy up to the first `*/`.
Returns the matched license text and the remainder. -/
def findLicense (l : List Char) : Option (List Char × List Char) :=
  if "/*!".data.isPrefixOf l then
    (splitClose (l.drop 3)).map (fun p => ("/*!".data ++ p.1, p.2))
  else none

/-- Pipeline of src/main.go lines 113-168: comment removal, whitespace
normalisation, operator and bracket compaction, then the optional
variable renaming. -/
def minifyCore (l : List Char) (shortenVars : Bool) : Option (List Char) :=
  (stripLineComments (l.length + 1) l).bind (fun a =>
  (stripBlockComments (a.length + 1) a).bind (fun b =>
  (collapseSpaces ((trimEdges b).length + 1) (trimEdges b)).bind (fun c =>
  (opFold opList c).bind (fun d =>
  (semiPass (d.length + 1) d).bind (fun e =>
  (functionPass (e.length + 1) e).bind (fun g =>
  (newlinePass (g.length + 1) g).bind (fun h =>
  (commaPass (h.length + 1) h).bind (fun i =>
  (bracketFold bracketsList i).bind (fun j =>
  if shortenVars then shortenVariableNames j else some j)))))))))

/-- Embedding of `Minifier.Minify` (src/main.go lines 99-175): with the
preserve-license option, a leading `/*!...*/` comment is removed before
the pipeline and prepended, followed by one newline, to the result. -/
def Minify (input : String) (preserveLicense shortenVars : Bool) : Option String :=
  match (if preserveLicense then findLicense input.data else none) with
  | some (license, rest) =>
    (minifyCore rest shortenVars).map (fun r => String.mk (license ++ '\n' :: r))
  | none => (minifyCore input.data shortenVars).map String.mk

/-- Whitespace-stripped view of a buffer, used by the end-to-end example
claim ("equal after deleting all whitespace characters"). -/
def stripWs (l : List Char) : List Char := l.filter (fun c => !(isSpace c))

/-! ## Fuel sufficiency: every scanner succeeds when given more fuel than
the length of its input, hence the pipeline is total (claim C4). -/

/-- Mapping does not change definedness of an option. -/
theorem isSome_map {α β : Type} (o : Option α) (g : α → β) :
    (o.map g).isSome = o.isSome := by
  cases o <;> rfl

/-- Length bound for `splitClose`. -/
theorem splitClose_length : ∀ l a rem, splitClose l = some (a, rem) →
    rem.length < l.length := by
  intro l
  induction l with
  | nil => intro a rem h; simp [splitClose] at h
  | cons c rest ih =>
    intro a rem h
    rw [splitClose] at h
    split at h
    · simp at h
      obtain ⟨-, h2⟩ := h
      subst h2
      cases rest with
      | nil => simp [headSat] at *
      | cons d t => simp [List.tail]; omega
    · cases hx : splitClose rest with
      | none => rw [hx] at h; simp at h
      | some p =>
        rw [hx] at h
        simp at h
        obtain ⟨-, h2⟩ := h
        subst h2
        have := ih p.1 p.2 (by rw [hx])
        simp
        omega

/-- Length bound for `splitQuote`. -/
theorem splitQuote_length : ∀ q l content rem, splitQuote q l = some (content, rem) →
    rem.length < l.length := by
  intro q l
  induction l with
  | nil => intro a rem h; simp [splitQuote] at h
  | cons c rest ih =>
    intro a rem h
    rw [splitQuote] at h
    split at h
    · simp at h
      obtain ⟨-, h2⟩ := h
      subst h2
      simp
    · cases hx : splitQuote q rest with
      | none => rw [hx] at h; simp at h
      | some p =>
        rw [hx] at h
        simp at h
        obtain ⟨-, h2⟩ := h
        subst h2
        have := ih p.1 p.2 (by rw [hx])
        simp
        omega

/-- Fuel sufficiency for `stripLineComments`. -/
theorem stripLineComments_isSome : ∀ f l, l.length < f →
    (stripLineComments f l).isSome = true := by
  intro f
  induction f with
  | zero => intro l h; omega
  | succ f ih =>
    intro l h
    match l with
    | [] => simp [stripLineComments]
    | c :: rest =>
      rw [stripLineComments]
      split
      · apply ih
        have := (List.dropWhile_suffix (l := rest) (fun x => !(x = '\n'))).length_le
        simp at h
        omega
      · rw [isSome_map]
        apply ih
        simp at h
        omega

/-- Fuel sufficiency for `stripBlockComments`. -/
theorem stripBlockComments_isSome : ∀ f l, l.length < f →
    (stripBlockComments f l).isSome = true := by
  intro f
  induction f with
  | zero => intro l h; omega
  | succ f ih =>
    intro l h
    match l with
    | [] => simp [stripBlockComments]
    | c :: rest =>
      rw [stripBlockComments]
      split
      · cases hx : splitClose rest.tail with
        | none =>
          rw [isSome_map]
          apply ih
          simp at h
          omega
        | some p =>
          have hlen := splitClose_length rest.tail p.1 p.2 (by rw [hx])
          have htail : rest.tail.length ≤ rest.length := by
            cases rest <;> simp [List.tail]
          simp at h
          apply ih
          omega
      · rw [isSome_map]
        apply ih
        simp at h
        omega

/-- Fuel sufficiency for `collapseSpaces`. -/
theorem collapseSpaces_isSome : ∀ f l, l.length < f →
    (collapseSpaces f l).isSome = true := by
  intro f
  induction f with
  | zero => intro l h; omega
  | succ f ih =>
    intro l h
    match l with
    | [] => simp [collapseSpaces]
    | c :: rest =>
      rw [collapseSpaces]
      split
      · rw [isSome_map]
        apply ih
        have := (List.dropWhile_suffix (l := rest) isSpace).length_le
        simp at h
        omega
      · rw [isSome_map]
        apply ih
        simp at h
        omega

/-- Fuel sufficiency for `opPass`. -/
theorem opPass_isSome : ∀ op repl f l, l.length < f →
    (opPass op repl f l).isSome = true := by
  intro op repl f
  induction f with
  | zero => intro l h; omega
  | succ f ih =>
    intro l h
    match l with
    | [] => simp [opPass]
    | c :: rest =>
      simp only [List.length_cons] at h
      have hdw := (List.dropWhile_suffix (l := rest) isSpace).length_le
      have htail : (rest.dropWhile isSpace).tail.length ≤ (rest.dropWhile isSpace).length := by
        cases rest.dropWhile isSpace <;> simp [List.tail]
      have hdw2 := (List.dropWhile_suffix (l := (rest.dropWhile isSpace).tail) isSpace).length_le
      rw [opPass]
      split
      · rw [isSome_map]
        apply ih
        omega
      · split
        · split
          · rw [isSome_map]
            apply ih
            omega
          · split
            · simp
            · rw [isSome_map]
              apply ih
              omega
        · rw [isSome_map]
          apply ih
          omega

/-- Fuel sufficiency for `semiPass`. -/
theorem semiPass_isSome : ∀ f l, l.length < f →
    (semiPass f l).isSome = true := by
  intro f
  induction f with
  | zero => intro l h; omega
  | succ f ih =>
    intro l h
    match l with
    | [] => simp [semiPass]
    | c :: rest =>
      simp only [List.length_cons] at h
      rw [semiPass]
      split
      · rw [isSome_map]
        apply ih
        have := (List.dropWhile_suffix (l := rest) (fun d => d = ';')).length_le
        omega
      · rw [isSome_map]
        apply ih
        omega

/-- Fuel sufficiency for `functionPass`. -/
theorem functionPass_isSome : ∀ f l, l.length < f →
    (functionPass f l).isSome = true := by
  intro f
  induction f with
  | zero => intro l h; omega
  | succ f ih =>
    intro l h
    match l with
    | [] => simp [functionPass]
    | c :: rest =>
      simp only [List.length_cons] at h
      rw [functionPass]
      split
      · rename_i hpre
        have hlen8 : 8 ≤ (c :: rest).length := by
          have := (List.isPrefixOf_iff_prefix.mp hpre).length_le
          simpa [kwFunction] using this
        have hdrop : ((c :: rest).drop 8).length = (c :: rest).length - 8 := by
          simp
        split
        · rw [isSome_map]
          apply ih
          have := (List.dropWhile_suffix (l := (c :: rest).drop 8) isSpace).length_le
          simp only [List.length_cons] at hdrop hlen8
          omega
        · rw [isSome_map]
          apply ih
          simp only [List.length_cons] at hdrop hlen8
          omega
      · rw [isSome_map]
        apply ih
        omega

/-- Fuel sufficiency for `newlinePass`. -/
theorem newlinePass_isSome : ∀ f l, l.length < f →
    (newlinePass f l).isSome = true := by
  intro f
  induction f with
  | zero => intro l h; omega
  | succ f ih =>
    intro l h
    match l with
    | [] => simp [newlinePass]
    | c :: rest =>
      simp only [List.length_cons] at h
      rw [newlinePass]
      split
      · apply ih
        have := (List.dropWhile_suffix (l := rest) (fun d => d = '\n')).length_le
        omega
      · rw [isSome_map]
        apply ih
        omega

/-- Fuel sufficiency for `commaPass`. -/
theorem commaPass_isSome : ∀ f l, l.length < f →
    (commaPass f l).isSome = true := by
  intro f
  induction f with
  | zero => intro l h; omega
  | succ f ih =>
    intro l h
    match l with
    | [] => simp [commaPass]
    | c :: rest =>
      simp only [List.length_cons] at h
      rw [commaPass]
      split
      · rw [isSome_map]
        apply ih
        have := (List.dropWhile_suffix (l := rest) isSpace).length_le
        omega
      · rw [isSome_map]
        apply ih
        omega

/-- Definedness of the operator fold. -/
theorem opFold_isSome : ∀ ops l, (opFold ops l).isSome = true := by
  intro ops
  induction ops with
  | nil => intro l; simp [opFold]
  | cons p rest ih =>
    intro l
    rw [opFold]
    obtain ⟨x, hx⟩ := Option.isSome_iff_exists.mp
      (opPass_isSome p.1 p.2 (l.length + 1) l (by omega))
    rw [hx]
    exact ih x

/-- Definedness of the bracket fold. -/
theorem bracketFold_isSome : ∀ bs l, (bracketFold bs l).isSome = true := by
  intro bs
  induction bs with
  | nil => intro l; simp [bracketFold]
  | cons b rest ih =>
    intro l
    rw [bracketFold]
    obtain ⟨x, hx⟩ := Option.isSome_iff_exists.mp
      (opPass_isSome b [b] (l.length + 1) l (by omega))
    rw [hx]
    exact ih x

/-- Fuel sufficiency for `shieldStrings`. -/
theorem shieldStrings_isSome : ∀ f k l, l.length < f →
    (shieldStrings f k l).isSome = true := by
  intro f
  induction f with
  | zero => intro k l h; omega
  | succ f ih =>
    intro k l h
    match l with
    | [] => simp [shieldStrings]
    | c :: rest =>
      simp only [List.length_cons] at h
      rw [shieldStrings]
      split
      · cases hx : splitQuote c rest with
        | none =>
          rw [isSome_map]
          apply ih
          omega
        | some p =>
          have := splitQuote_length c rest p.1 p.2 (by rw [hx])
          rw [isSome_map]
          apply ih
          omega
      · rw [isSome_map]
        apply ih
        omega

/-- Length bound for `kwSplit`. -/
theorem kwSplit_length : ∀ l kw a, kwSplit l = some (kw, a) →
    a.length + 3 ≤ l.length := by
  intro l kw a h
  rw [kwSplit] at h
  split at h
  · rename_i hp
    have := (List.isPrefixOf_iff_prefix.mp hp).length_le
    simp at h this
    obtain ⟨-, h2⟩ := h
    subst h2
    simp
    omega
  · split at h
    · rename_i hp
      have := (List.isPrefixOf_iff_prefix.mp hp).length_le
      simp at h this
      obtain ⟨-, h2⟩ := h
      subst h2
      simp
      omega
    · split at h
      · rename_i hp
        have := (List.isPrefixOf_iff_prefix.mp hp).length_le
        simp at h this
        obtain ⟨-, h2⟩ := h
        subst h2
        simp
        omega
      · simp at h

/-- Length bound for `identSplit`: the remainder is shorter than the
input. -/
theorem identSplit_length : ∀ l ident rem, identSplit l = some (ident, rem) →
    rem.length < l.length := by
  intro l ident rem h
  match l with
  | [] => simp [identSplit] at h
  | c :: rest =>
    rw [identSplit] at h
    split at h
    · split at h
      · simp at h
      · simp at h
        obtain ⟨-, h2⟩ := h
        rename_i hne
        have hid : ¬((stripTrailingDollar (c :: rest.takeWhile isIdentChar)).length = 0) := by
          intro hz
          exact hne (List.isEmpty_iff_length_eq_zero.mpr hz)
        have htw : (rest.takeWhile isIdentChar).length + (rest.dropWhile isIdentChar).length = rest.length := by
          rw [← List.length_append, List.takeWhile_append_dropWhile]
        subst h2
        simp only [List.length_append, List.length_drop, List.length_cons] at *
        omega
    · simp at h

/-- Fuel sufficiency for `declPass`. -/
theorem declPass_isSome : ∀ f vm cnt prev l, l.length < f →
    (declPass f vm cnt prev l).isSome = true := by
  intro f
  induction f with
  | zero => intro vm cnt prev l h; omega
  | succ f ih =>
    intro vm cnt prev l h
    match l with
    | [] => simp [declPass]
    | c :: rest =>
      simp only [List.length_cons] at h
      rw [declPass]
      split
      · cases hkw : kwSplit (c :: rest) with
        | none =>
          rw [isSome_map]
          apply ih
          omega
        | some p =>
          obtain ⟨kw, afterKw⟩ := p
          dsimp only
          have hkwlen := kwSplit_length (c :: rest) kw afterKw hkw
          simp only [List.length_cons] at hkwlen
          split
          · cases hid : identSplit (afterKw.dropWhile isSpace) with
            | none =>
              dsimp only
              rw [isSome_map]
              apply ih
              omega
            | some q =>
              obtain ⟨ident, remainder⟩ := q
              dsimp only
              have hidlen := identSplit_length _ ident remainder hid
              have hdwlen := (List.dropWhile_suffix (l := afterKw) isSpace).length_le
              cases hvm : vmLookup vm ident with
              | some short =>
                dsimp only
                rw [isSome_map]
                apply ih
                omega
              | none =>
                dsimp only
                rw [isSome_map]
                apply ih
                omega
          · rw [isSome_map]
            apply ih
            omega
      · rw [isSome_map]
        apply ih
        omega

/-- Fuel sufficiency for `wholeWordReplace` with a non-empty pattern. -/
theorem wholeWordReplace_isSome : ∀ orig short f prev l, l.length < f →
    (wholeWordReplace orig short f prev l).isSome = true := by
  intro orig short f
  induction f with
  | zero => intro prev l h; omega
  | succ f ih =>
    intro prev l h
    match l with
    | [] => simp [wholeWordReplace]
    | c :: rest =>
      simp only [List.length_cons] at h
      rw [wholeWordReplace]
      split
      · simp
      · split
        · rename_i hno hyes
          have hone : 1 ≤ orig.length := by
            cases horig : orig with
            | nil => rw [horig] at hno; simp at hno
            | cons x xs => simp [horig]
          rw [isSome_map]
          apply ih
          simp
          omega
        · rw [isSome_map]
          apply ih
          omega

/-- Fuel sufficiency for `replaceSub` (any pattern). -/
theorem replaceSub_isSome : ∀ pat repl f l, l.length < f →
    (replaceSub pat repl f l).isSome = true := by
  intro pat repl f
  induction f with
  | zero => intro l h; omega
  | succ f ih =>
    intro l h
    match l with
    | [] => simp [replaceSub]
    | c :: rest =>
      simp only [List.length_cons] at h
      rw [replaceSub]
      split
      · simp
      · split
        · rename_i hno hyes
          have hone : 1 ≤ pat.length := by
            cases hp : pat with
            | nil => rw [hp] at hno; simp at hno
            | cons x xs => simp [hp]
          rw [isSome_map]
          apply ih
          simp
          omega
        · rw [isSome_map]
          apply ih
          omega

/-- Definedness of the usage-substitution fold. -/
theorem substUsages_isSome : ∀ vm code, (substUsages vm code).isSome = true := by
  intro vm
  induction vm with
  | nil => intro code; simp [substUsages]
  | cons p rest ih =>
    intro code
    rw [substUsages]
    have h1 : (usageApply code p).isSome = true := by
      rw [usageApply]
      split
      · simp
      · exact wholeWordReplace_isSome p.1 p.2 (code.length + 1) false code (by omega)
    obtain ⟨x, hx⟩ := Option.isSome_iff_exists.mp h1
    rw [hx]
    exact ih x

/-- Definedness of the restore fold. -/
theorem unshieldAll_isSome : ∀ tab code, (unshieldAll tab code).isSome = true := by
  intro tab
  induction tab with
  | nil => intro code; simp [unshieldAll]
  | cons p rest ih =>
    intro code
    obtain ⟨q, lit⟩ := p
    rw [unshieldAll]
    obtain ⟨x, hx⟩ := Option.isSome_iff_exists.mp
      (replaceSub_isSome q lit (code.length + 1) code (by omega))
    rw [hx]
    exact ih x

/-- Definedness of the renaming stage. -/
theorem shortenVariableNames_isSome : ∀ code,
    (shortenVariableNames code).isSome = true := by
  intro code
  rw [shortenVariableNames]
  obtain ⟨sp, hsp⟩ := Option.isSome_iff_exists.mp
    (shieldStrings_isSome (code.length + 1) 0 code (by omega))
  obtain ⟨dp, hdp⟩ := Option.isSome_iff_exists.mp
    (declPass_isSome (sp.1.length + 1) [] 0 false sp.1 (by omega))
  obtain ⟨u, hu⟩ := Option.isSome_iff_exists.mp (substUsages_isSome dp.2.1 dp.1)
  simp only [hsp, Option.some_bind, hdp, hu]
  exact unshieldAll_isSome sp.2 u

/-- Definedness of the core pipeline. -/
theorem minifyCore_isSome : ∀ l sv, (minifyCore l sv).isSome = true := by
  intro l sv
  rw [minifyCore]
  obtain ⟨a, ha⟩ := Option.isSome_iff_exists.mp
    (stripLineComments_isSome (l.length + 1) l (by omega))
  obtain ⟨b, hb⟩ := Option.isSome_iff_exists.mp
    (stripBlockComments_isSome (a.length + 1) a (by omega))
  obtain ⟨c, hc⟩ := Option.isSome_iff_exists.mp
    (collapseSpaces_isSome ((trimEdges b).length + 1) (trimEdges b) (by omega))
  obtain ⟨d, hd⟩ := Option.isSome_iff_exists.mp (opFold_isSome opList c)
  obtain ⟨e, he⟩ := Option.isSome_iff_exists.mp
    (semiPass_isSome (d.length + 1) d (by omega))
  obtain ⟨g, hg⟩ := Option.isSome_iff_exists.mp
    (functionPass_isSome (e.length + 1) e (by omega))
  obtain ⟨hh, hhh⟩ := Option.isSome_iff_exists.mp
    (newlinePass_isSome (g.length + 1) g (by omega))
  obtain ⟨i, hi⟩ := Option.isSome_iff_exists.mp
    (commaPass_isSome (hh.length + 1) hh (by omega))
  obtain ⟨j, hj⟩ := Option.isSome_iff_exists.mp (bracketFold_isSome bracketsList i)
  simp only [ha, Option.some_bind, hb, hc, hd, he, hg, hhh, hi, hj]
  split
  · exact shortenVariableNames_isSome j
  · rfl

/-- Claim C4: `Minify` is a total function.  For every input string and
every setting of the preserve-license and shorten-vars options the
pipeline terminates with a defined result: every fuel-driven scanner is
run with sufficient fuel, so the `none` (non-termination/failed) outcome
is unreachable. -/
theorem minify_total (input : String) (preserveLicense shortenVars : Bool) :
    (Minify input preserveLicense shortenVars).isSome = true := by
  rw [Minify]
  cases hl : (if preserveLicense then findLicense input.data else none) with
  | none =>
    rw [isSome_map]
    exact minifyCore_isSome input.data shortenVars
  | some p =>
    obtain ⟨license, rest⟩ := p
    dsimp only
    rw [isSome_map]
    exact minifyCore_isSome rest shortenVars

/-! ## Decimal formatting and the short-name generator (claim C6). -/

/-- Unfolding of `natDigitsAux` under sufficient fuel. -/
theorem natDigitsAux_eq : ∀ n f acc, n < f →
    natDigitsAux f n acc = natDigits n ++ acc := by
  intro n
  induction n using Nat.strong_induction_on with
  | _ n ih =>
    intro f acc hf
    match f with
    | 0 => omega
    | f+1 =>
      rw [natDigitsAux]
      by_cases h10 : n < 10
      · rw [if_pos h10, natDigits, natDigitsAux, if_pos h10]
        simp
      · rw [if_neg h10]
        have hdiv : n / 10 < n := Nat.div_lt_self (by omega) (by omega)
        rw [ih (n / 10) hdiv f _ (by omega)]
        have hn : natDigits n
            = natDigits (n / 10) ++ [digitsList.getD (n % 10) '0'] := by
          rw [natDigits, natDigitsAux, if_neg h10]
          exact ih (n / 10) hdiv n _ (by omega)
        rw [hn]
        simp

/-- Shape of `natDigits` for small numbers. -/
theorem natDigits_lt10 (n : Nat) (h : n < 10) :
    natDigits n = [digitsList.getD n '0'] := by
  rw [natDigits, natDigitsAux, if_pos h]

/-- Shape of `natDigits` for larger numbers: the digits of the quotient
followed by the last digit. -/
theorem natDigits_ge10 (n : Nat) (h : 10 ≤ n) :
    natDigits n = natDigits (n / 10) ++ [digitsList.getD (n % 10) '0'] := by
  rw [natDigits, natDigitsAux, if_neg (by omega)]
  have hdiv : n / 10 < n := Nat.div_lt_self (by omega) (by omega)
  rw [natDigitsAux_eq (n / 10) n _ hdiv]

/-- Value of a decimal digit character for digits below ten. -/
theorem digitVal_getD : ∀ k < 10, digitVal (digitsList.getD k '0') = k := by decide

/-- Round trip: `natVal` decodes `natDigits`, hence decimal formatting
loses no information. -/
theorem natVal_natDigits : ∀ n, natVal (natDigits n) = n := by
  intro n
  induction n using Nat.strong_induction_on with
  | _ n ih =>
    by_cases h10 : n < 10
    · rw [natDigits_lt10 n h10, natVal]
      simp only [List.foldl_cons, List.foldl_nil]
      have := digitVal_getD n h10
      omega
    · rw [natDigits_ge10 n (by omega)]
      have hdiv : n / 10 < n := Nat.div_lt_self (by omega) (by omega)
      have hih := ih (n / 10) hdiv
      rw [natVal, List.foldl_append]
      rw [natVal] at hih
      rw [hih]
      simp only [List.foldl_cons, List.foldl_nil]
      have := digitVal_getD (n % 10) (by omega)
      have := Nat.div_add_mod n 10
      omega

/-- Injectivity of decimal formatting. -/
theorem natDigits_injective (m n : Nat) (h : natDigits m = natDigits n) : m = n := by
  have := natVal_natDigits m
  rw [h, natVal_natDigits n] at this
  omega

/-- Digit strings are never empty. -/
theorem natDigits_ne_nil (n : Nat) : natDigits n ≠ [] := by
  by_cases h10 : n < 10
  · rw [natDigits_lt10 n h10]; simp
  · rw [natDigits_ge10 n (by omega)]; simp

/-- Indexing the alphabet string agrees with the code-point reading of
"the lowercase letter at position i of the alphabet". -/
theorem alphabetList_getD : ∀ i < 26, alphabetList.getD i 'a' = Char.ofNat (97 + i) := by
  decide

/-- Distinct alphabet positions give distinct letters. -/
theorem alphabetChar_inj : ∀ i < 26, ∀ j < 26,
    Char.ofNat (97 + i) = Char.ofNat (97 + j) → i = j := by
  decide

/-- Claim C6: within one invocation the Nth generated short name (the
generator is called with counter value N and increments it) is the
lowercase letter at position `N mod 26` of the alphabet, with the
decimal numeral `N div 26` appended exactly when that quotient is
non-zero, and the generator is injective: distinct counter values yield
distinct names. -/
theorem generateVarName_spec (m n : Nat) :
    (generateVarName n).1
      = Char.ofNat (97 + n % 26) :: (if n / 26 = 0 then [] else natDigits (n / 26)) ∧
    ((generateVarName m).1 = (generateVarName n).1 → m = n) := by
  have hchar : ∀ k : Nat, alphabetList.getD (k % 26) 'a' = Char.ofNat (97 + k % 26) :=
    fun k => alphabetList_getD (k % 26) (Nat.mod_lt k (by omega))
  constructor
  · rw [generateVarName]
    by_cases h0 : n / 26 = 0
    · simp only [h0, if_pos rfl, hchar n]
      simp
    · simp only [if_neg h0, hchar n]
  · intro heq
    have hm : (generateVarName m).1
        = Char.ofNat (97 + m % 26) :: (if m / 26 = 0 then [] else natDigits (m / 26)) := by
      rw [generateVarName]
      by_cases h0 : m / 26 = 0
      · simp only [h0, if_pos rfl, hchar m]
        simp
      · simp only [if_neg h0, hchar m]
    have hn : (generateVarName n).1
        = Char.ofNat (97 + n % 26) :: (if n / 26 = 0 then [] else natDigits (n / 26)) := by
      rw [generateVarName]
      by_cases h0 : n / 26 = 0
      · simp only [h0, if_pos rfl, hchar n]
        simp
      · simp only [if_neg h0, hchar n]
    rw [hm, hn] at heq
    have hhead : Char.ofNat (97 + m % 26) = Char.ofNat (97 + n % 26) :=
      (List.cons.injEq _ _ _ _ ▸ heq).1
    have htail : (if m / 26 = 0 then ([] : List Char) else natDigits (m / 26))
        = (if n / 26 = 0 then [] else natDigits (n / 26)) :=
      (List.cons.injEq _ _ _ _ ▸ heq).2
    have hmod : m % 26 = n % 26 :=
      alphabetChar_inj (m % 26) (Nat.mod_lt m (by omega)) (n % 26) (Nat.mod_lt n (by omega)) hhead
    have hdivm := Nat.div_add_mod m 26
    have hdivn := Nat.div_add_mod n 26
    by_cases hm0 : m / 26 = 0
    · by_cases hn0 : n / 26 = 0
      · omega
      · rw [if_pos hm0, if_neg hn0] at htail
        exact absurd htail.symm (natDigits_ne_nil (n / 26))
    · by_cases hn0 : n / 26 = 0
      · rw [if_neg hm0, if_pos hn0] at htail
        exact absurd htail (natDigits_ne_nil (m / 26))
      · rw [if_neg hm0, if_neg hn0] at htail
        have := natDigits_injective _ _ htail
        omega

/-- Witness for claim C6 at counter value 27 (name "b1"), with the
injectivity hypothesis discharged reflexively. -/
theorem generateVarName_spec_witness :
    (generateVarName 27).1
      = Char.ofNat (97 + 27 % 26) :: (if 27 / 26 = 0 then [] else natDigits (27 / 26)) ∧
    27 = 27 :=
  ⟨(generateVarName_spec 27 27).1, (generateVarName_spec 27 27).2 rfl⟩

/-! ## Concrete evaluations: the end-to-end example, size reduction and
substitution-order claims. -/

/-- Claim C7 (code bug): on the spec's end-to-end example the output is
`functiontest(a,b){return a\+b;}`: the operator pass replaces `+` by the
two characters `\+`, because the Go code passes the pre-escaped pattern
text as the `ReplaceAllString` replacement, where a backslash is
literal.  Even after deleting every whitespace character from both
sides, the output differs from the specified
`function test(a,b){return a+b;}` (the repo's own `TestMinifierBasic`
makes the same comparison and fails). -/
theorem minify_example_divergence :
    Minify "function test(a, b) \x7b\n  // comment\n  return a + b;\n\x7d" false false
      = some "functiontest(a,b)\x7breturn a\\+b;\x7d" ∧
    stripWs ("functiontest(a,b)\x7breturn a\\+b;\x7d" : String).data
      ≠ stripWs ("function test(a,b)\x7breturn a+b;\x7d" : String).data := by
  constructor
  · rfl
  · decide

/-- Claim C8 (code bug): the input `//\na+b+c+d+e` contains a line
comment, yet the output `a\+b\+c\+d\+e` is strictly longer than the
input (12 bytes become 13): each bare `+` grows to `\+`. -/
theorem minify_length_divergence :
    occurs "//".data ("//\na+b+c+d+e" : String).data = true ∧
    Minify "//\na+b+c+d+e" false false = some "a\\+b\\+c\\+d\\+e" ∧
    ("//\na+b+c+d+e" : String).length < ("a\\+b\\+c\\+d\\+e" : String).length := by
  refine ⟨by decide, by rfl, by decide⟩

/-- Claim C3 (code bug): the rename table produced by the declaration
scan on the buffer `var z=1;var a=z;` is `[z ↦ a, a ↦ b]`, and applying
the usage substitutions in the two possible orders yields different
buffers (`var b=1;var b=b;` versus `var b=1;var b=a;`): the generated
short name `a` collides with the original identifier `a`, so the
order-independence the spec requires of the map iteration fails. -/
theorem substUsages_order_dependent :
    declPass 17 [] 0 false ("var z=1;var a=z;" : String).data
      = some (("var a=1;var b=z;" : String).data,
              [(['z'], ['a']), (['a'], ['b'])], 2) ∧
    List.Perm [(['z'], ['a']), (['a'], ['b'])] [(['a'], ['b']), (['z'], ['a'])] ∧
    substUsages [(['z'], ['a']), (['a'], ['b'])] ("var a=1;var b=z;" : String).data
      ≠ substUsages [(['a'], ['b']), (['z'], ['a'])] ("var a=1;var b=z;" : String).data := by
  refine ⟨by rfl, ?_, by decide⟩
  decide

/-- Claim C1 counterexample: the input `//{` contains one opening brace;
comment stripping deletes it, so the output contains none and the
brace count is not preserved between input and output. -/
theorem bracketCount_counterexample :
    Minify "//\x7b" false false = some "" ∧
    ("//\x7b" : String).data.count '\x7b' = 1 ∧
    ("" : String).data.count '\x7b' = 0 := by
  refine ⟨by rfl, by decide, by decide⟩

/-- Claim C2 counterexample: the literal `"a  b"` contains no reserved
placeholder prefix, yet with shorten-vars enabled the minified output of
`var x = "a  b";` is `var a="a b";`: the whitespace-collapsing pass runs
before shielding and rewrites the literal's interior, so the exact
literal text is not present in the output. -/
theorem shieldRoundTrip_counterexample :
    occurs "__STR_".data ("\"a  b\"" : String).data = false ∧
    Minify "var x = \"a  b\";" false true = some "var a=\"a b\";" ∧
    occurs ("\"a  b\"" : String).data ("var a=\"a b\";" : String).data = false := by
  refine ⟨by decide, by rfl, by decide⟩

/-- Claim C10 counterexample: shielding the buffer
`var __STR_0__=1;var x="L";` stores one literal under the placeholder
`__STR_0__`, but the placeholder text occurs twice in the shielded
buffer (the second occurrence is a real identifier of the input), so a
placeholder does collide with a real identifier; the full pipeline then
renames both occurrences and the literal `"L"` is lost entirely. -/
theorem placeholderCollision_counterexample :
    shieldStrings 27 0 ("var __STR_0__=1;var x=\"L\";" : String).data
      = some (("var __STR_0__=1;var x=__STR_0__;" : String).data,
              [(("__STR_0__" : String).data, ("\"L\"" : String).data)]) ∧
    countOcc ("__STR_0__" : String).data
      ("var __STR_0__=1;var x=__STR_0__;" : String).data = 2 ∧
    Minify "var __STR_0__=1;var x=\"L\";" false true = some "var a=1;var b=a;" := by
  refine ⟨by rfl, by decide, by rfl⟩

/-! ## Character-count preservation (claim C1, amended): outside comment
removal and variable renaming, no pass creates or deletes a bracket
character. -/

/-- Dropping a run of `p`-characters does not change the count of a
character that fails `p`. -/
theorem count_dropWhile (p : Char → Bool) (b : Char) (hb : p b = false) :
    ∀ l : List Char, (l.dropWhile p).count b = l.count b := by
  intro l
  induction l with
  | nil => rfl
  | cons x xs ih =>
    by_cases hx : p x = true
    · have hxb : ¬(x = b) := fun e => by rw [e, hb] at hx; cases hx
      rw [List.dropWhile_cons_of_pos hx, ih, List.count_cons]
      simp [hxb]
    · rw [List.dropWhile_cons_of_neg hx]

/-- A run of `p`-characters contains no character failing `p`. -/
theorem count_takeWhile (p : Char → Bool) (b : Char) (hb : p b = false) :
    ∀ l : List Char, (l.takeWhile p).count b = 0 := by
  intro l
  induction l with
  | nil => rfl
  | cons x xs ih =>
    by_cases hx : p x = true
    · have hxb : ¬(x = b) := fun e => by rw [e, hb] at hx; cases hx
      rw [List.takeWhile_cons_of_pos hx, List.count_cons, ih]
      simp [hxb]
    · rw [List.takeWhile_cons_of_neg hx, List.count_nil]

/-- Inversion for `headSat`. -/
theorem headSat_eq (p : Char → Bool) (l : List Char) (h : headSat p l = true) :
    ∃ c t, l = c :: t ∧ p c = true := by
  cases l with
  | nil => simp [headSat] at h
  | cons c t => exact ⟨c, t, rfl, h⟩

/-- A successful `isPrefixOf` splits the list. -/
theorem prefix_drop_eq (a l : List Char) (h : a.isPrefixOf l = true) :
    l = a ++ l.drop a.length := by
  obtain ⟨t, ht⟩ := List.isPrefixOf_iff_prefix.mp h
  subst ht
  rw [List.drop_left]

/-- A prefix occurrence is an occurrence. -/
theorem occurs_of_isPrefixOf (pat l : List Char) (h : pat.isPrefixOf l = true) :
    occurs pat l = true := by
  cases l with
  | nil =>
    cases pat with
    | nil => rfl
    | cons c t => simp [List.isPrefixOf] at h
  | cons c t =>
    rw [occurs, h]
    rfl

/-- Inversion of a failed occurrence test on a cons cell. -/
theorem occurs_cons_false (pat : List Char) (c : Char) (rest : List Char)
    (h : occurs pat (c :: rest) = false) :
    pat.isPrefixOf (c :: rest) = false ∧ occurs pat rest = false := by
  rw [occurs] at h
  exact Bool.or_eq_false_iff.mp h

/-- Line-comment stripping is the identity on buffers without `//`. -/
theorem stripLineComments_id : ∀ f l, l.length < f → occurs "//".data l = false →
    stripLineComments f l = some l := by
  intro f
  induction f with
  | zero => intro l h; omega
  | succ f ih =>
    intro l h hocc
    match l with
    | [] => rfl
    | c :: rest =>
      rw [stripLineComments]
      obtain ⟨hpre, hrest⟩ := occurs_cons_false _ _ _ hocc
      have hcond : ¬(c = '/' && headSat (fun d => d = '/') rest) = true := by
        intro hc
        simp only [Bool.and_eq_true, decide_eq_true_eq] at hc
        obtain ⟨hc1, hc2⟩ := hc
        obtain ⟨d, t, hdt, hd⟩ := headSat_eq _ _ hc2
        simp only [decide_eq_true_eq] at hd
        subst hc1 hdt hd
        have hyes : ("//".data).isPrefixOf ('/' :: '/' :: t) = true :=
          List.isPrefixOf_iff_prefix.mpr ⟨t, rfl⟩
        rw [hyes] at hpre
        cases hpre
      rw [if_neg hcond]
      simp only [List.length_cons] at h
      rw [ih rest (by omega) hrest]
      rfl

/-- Block-comment stripping is the identity on buffers without `/*`. -/
theorem stripBlockComments_id : ∀ f l, l.length < f → occurs "/*".data l = false →
    stripBlockComments f l = some l := by
  intro f
  induction f with
  | zero => intro l h; omega
  | succ f ih =>
    intro l h hocc
    match l with
    | [] => rfl
    | c :: rest =>
      rw [stripBlockComments]
      obtain ⟨hpre, hrest⟩ := occurs_cons_false _ _ _ hocc
      have hcond : ¬(c = '/' && headSat (fun d => d = '*') rest) = true := by
        intro hc
        simp only [Bool.and_eq_true, decide_eq_true_eq] at hc
        obtain ⟨hc1, hc2⟩ := hc
        obtain ⟨d, t, hdt, hd⟩ := headSat_eq _ _ hc2
        simp only [decide_eq_true_eq] at hd
        subst hc1 hdt hd
        have hyes : ("/*".data).isPrefixOf ('/' :: '*' :: t) = true :=
          List.isPrefixOf_iff_prefix.mpr ⟨t, rfl⟩
        rw [hyes] at hpre
        cases hpre
      rw [if_neg hcond]
      simp only [List.length_cons] at h
      rw [ih rest (by omega) hrest]
      rfl

/-- With no `/*` in the buffer there is no license match. -/
theorem findLicense_none (l : List Char) (h : occurs "/*".data l = false) :
    findLicense l = none := by
  rw [findLicense]
  split
  · rename_i hpre
    exfalso
    have : "/*".data.isPrefixOf l = true := by
      obtain ⟨t, ht⟩ := List.isPrefixOf_iff_prefix.mp hpre
      apply List.isPrefixOf_iff_prefix.mpr
      exact ⟨'!' :: t, by rw [← ht]; rfl⟩
    rw [occurs_of_isPrefixOf _ _ this] at h
    cases h
  · rfl

/-- Edge trimming preserves the count of every non-whitespace
character. -/
theorem trimEdges_count (b : Char) (hb : isSpace b = false) (l : List Char) :
    (trimEdges l).count b = l.count b := by
  rw [trimEdges, List.count_reverse, count_dropWhile isSpace b hb,
    List.count_reverse, count_dropWhile isSpace b hb]

/-- Whitespace collapsing preserves the count of every non-whitespace
character. -/
theorem collapseSpaces_count (b : Char) (hb : isSpace b = false) :
    ∀ f l out, collapseSpaces f l = some out → out.count b = l.count b := by
  intro f
  induction f with
  | zero => intro l out h; simp [collapseSpaces] at h
  | succ f ih =>
    intro l out h
    match l with
    | [] => simp [collapseSpaces] at h; subst h; rfl
    | c :: rest =>
      rw [collapseSpaces] at h
      have hbspace : ¬(b = ' ') := fun e => by
        rw [e] at hb; simp [isSpace] at hb
      split at h
      · rename_i hc
        simp only [Bool.and_eq_true] at hc
        have hcb : ¬(c = b) := fun e => by
          rw [e] at hc; rw [hc.1] at hb; cases hb
        cases hx : collapseSpaces f (rest.dropWhile isSpace) with
        | none => rw [hx] at h; simp at h
        | some r =>
          rw [hx] at h
          simp at h
          subst h
          rw [List.count_cons, List.count_cons, ih _ _ hx,
            count_dropWhile isSpace b hb]
          have hspaceb : ¬(' ' = b) := fun e => hbspace e.symm
          have hcb2 : ¬(c = b) := hcb
          simp [hspaceb, hcb2]
      · cases hx : collapseSpaces f rest with
        | none => rw [hx] at h; simp at h
        | some r =>
          rw [hx] at h
          simp at h
          subst h
          rw [List.count_cons, List.count_cons, ih _ _ hx]

/-- The character-and-whitespace pass preserves the count of every
non-whitespace character `b`, provided the replacement text contains `b`
exactly once when `b` is the pass character and never otherwise. -/
theorem opPass_count (op : Char) (repl : List Char) (b : Char)
    (hb : isSpace b = false)
    (hrepl : repl.count b = if b = op then 1 else 0) :
    ∀ f l out, opPass op repl f l = some out → out.count b = l.count b := by
  intro f
  induction f with
  | zero => intro l out h; simp [opPass] at h
  | succ f ih =>
    intro l out h
    match l with
    | [] => simp [opPass] at h; subst h; rfl
    | c :: rest =>
      rw [opPass] at h
      split at h
      · rename_i hcop
        cases hx : opPass op repl f (rest.dropWhile isSpace) with
        | none => rw [hx] at h; simp at h
        | some r =>
          rw [hx] at h
          simp at h
          subst h
          rw [List.count_append, hrepl, ih _ _ hx, count_dropWhile isSpace b hb,
            List.count_cons, hcop]
          by_cases hbop : b = op
          · simp [hbop]
            omega
          · have hopb : (op == b) = false := beq_eq_false_iff_ne.mpr (fun e => hbop e.symm)
            simp [hbop, hopb]
      · split at h
        · rename_i hspace
          have hcb : (c == b) = false := by
            apply beq_eq_false_iff_ne.mpr
            intro e
            rw [e] at hspace
            rw [hspace] at hb
            cases hb
          have hrest : rest.count b = (rest.dropWhile isSpace).count b :=
            (count_dropWhile isSpace b hb rest).symm
          split at h
          · rename_i hhead
            obtain ⟨d, t, hdt, hd⟩ := headSat_eq _ _ hhead
            simp only [decide_eq_true_eq] at hd
            rw [hd] at hdt
            cases hx : opPass op repl f ((rest.dropWhile isSpace).tail.dropWhile isSpace) with
            | none => rw [hx] at h; simp at h
            | some r =>
              rw [hx] at h
              simp at h
              subst h
              have htl : (rest.dropWhile isSpace).tail = t := by rw [hdt]; rfl
              rw [List.count_append, hrepl, ih _ _ hx, htl,
                count_dropWhile isSpace b hb, List.count_cons, hcb, hrest, hdt,
                List.count_cons]
              by_cases hbop : b = op
              · simp [hbop]
                omega
              · have hopb : (op == b) = false :=
                  beq_eq_false_iff_ne.mpr (fun e => hbop e.symm)
                simp [hbop, hopb]
          · split at h
            · simp at h
              subst h
              rfl
            · cases hx : opPass op repl f (rest.dropWhile isSpace) with
              | none => rw [hx] at h; simp at h
              | some r =>
                rw [hx] at h
                simp at h
                subst h
                rw [List.count_cons, List.count_cons, List.count_append,
                  ih _ _ hx, count_dropWhile isSpace b hb,
                  count_takeWhile isSpace b hb, hcb, hrest]
                simp
        · cases hx : opPass op repl f rest with
          | none => rw [hx] at h; simp at h
          | some r =>
            rw [hx] at h
            simp at h
            subst h
            rw [List.count_cons, List.count_cons, ih _ _ hx]

/-- Semicolon collapsing preserves the count of every character other
than the semicolon. -/
theorem semiPass_count (b : Char) (hbsemi : ¬(b = ';')) :
    ∀ f l out, semiPass f l = some out → out.count b = l.count b := by
  intro f
  induction f with
  | zero => intro l out h; simp [semiPass] at h
  | succ f ih =>
    intro l out h
    match l with
    | [] => simp [semiPass] at h; subst h; rfl
    | c :: rest =>
      rw [semiPass] at h
      split at h
      · rename_i hc
        simp only [Bool.and_eq_true, decide_eq_true_eq] at hc
        cases hx : semiPass f (rest.dropWhile (fun d => d = ';')) with
        | none => rw [hx] at h; simp at h
        | some r =>
          rw [hx] at h
          simp at h
          subst h
          have hsb : (';' == b) = false := beq_eq_false_iff_ne.mpr (fun e => hbsemi e.symm)
          have hcb : (c == b) = false := by
            rw [hc.1]
            exact hsb
          have hdw : decide (b = ';') = false := by simp [hbsemi]
          rw [List.count_cons, List.count_cons, ih _ _ hx, hsb, hcb,
            count_dropWhile (fun d => decide (d = ';')) b (by simp [hbsemi]) rest]
      · cases hx : semiPass f rest with
        | none => rw [hx] at h; simp at h
        | some r =>
          rw [hx] at h
          simp at h
          subst h
          rw [List.count_cons, List.count_cons, ih _ _ hx]

/-- Function-keyword spacing removal preserves the count of every
non-whitespace character. -/
theorem functionPass_count (b : Char) (hb : isSpace b = false) :
    ∀ f l out, functionPass f l = some out → out.count b = l.count b := by
  intro f
  induction f with
  | zero => intro l out h; simp [functionPass] at h
  | succ f ih =>
    intro l out h
    match l with
    | [] => simp [functionPass] at h; subst h; rfl
    | c :: rest =>
      rw [functionPass] at h
      split at h
      · rename_i hpre
        have hsplit : (c :: rest) = kwFunction ++ (c :: rest).drop 8 := by
          have := prefix_drop_eq kwFunction (c :: rest) hpre
          simpa [kwFunction] using this
        split at h
        · cases hx : functionPass f (((c :: rest).drop 8).dropWhile isSpace) with
          | none => rw [hx] at h; simp at h
          | some r =>
            rw [hx] at h
            simp at h
            subst h
            rw [List.count_append, ih _ _ hx, count_dropWhile isSpace b hb]
            conv_rhs => rw [hsplit]
            rw [List.count_append]
        · cases hx : functionPass f ((c :: rest).drop 8) with
          | none => rw [hx] at h; simp at h
          | some r =>
            rw [hx] at h
            simp at h
            subst h
            rw [List.count_append, ih _ _ hx]
            conv_rhs => rw [hsplit]
            rw [List.count_append]
      · cases hx : functionPass f rest with
        | none => rw [hx] at h; simp at h
        | some r =>
          rw [hx] at h
          simp at h
          subst h
          rw [List.count_cons, List.count_cons, ih _ _ hx]

/-- Newline removal preserves the count of every non-whitespace
character. -/
theorem newlinePass_count (b : Char) (hb : isSpace b = false) :
    ∀ f l out, newlinePass f l = some out → out.count b = l.count b := by
  intro f
  induction f with
  | zero => intro l out h; simp [newlinePass] at h
  | succ f ih =>
    intro l out h
    have hbn : ¬(b = '\n') := fun e => by
      rw [e] at hb; simp [isSpace] at hb
    match l with
    | [] => simp [newlinePass] at h; subst h; rfl
    | c :: rest =>
      rw [newlinePass] at h
      split at h
      · rename_i hc
        have hcb : (c == b) = false := beq_eq_false_iff_ne.mpr (by rw [hc]; exact fun e => hbn e.symm)
        rw [ih _ _ h, count_dropWhile (fun d => decide (d = '\n')) b (by simp [hbn]) rest,
          List.count_cons, hcb]
        simp
      · cases hx : newlinePass f rest with
        | none => rw [hx] at h; simp at h
        | some r =>
          rw [hx] at h
          simp at h
          subst h
          rw [List.count_cons, List.count_cons, ih _ _ hx]

/-- Comma-space removal preserves the count of every non-whitespace
character. -/
theorem commaPass_count (b : Char) (hb : isSpace b = false) :
    ∀ f l out, commaPass f l = some out → out.count b = l.count b := by
  intro f
  induction f with
  | zero => intro l out h; simp [commaPass] at h
  | succ f ih =>
    intro l out h
    match l with
    | [] => simp [commaPass] at h; subst h; rfl
    | c :: rest =>
      rw [commaPass] at h
      split at h
      · rename_i hc
        simp only [Bool.and_eq_true, decide_eq_true_eq] at hc
        cases hx : commaPass f (rest.dropWhile isSpace) with
        | none => rw [hx] at h; simp at h
        | some r =>
          rw [hx] at h
          simp at h
          subst h
          rw [List.count_cons, List.count_cons, ih _ _ hx,
            count_dropWhile isSpace b hb, hc.1]
      · cases hx : commaPass f rest with
        | none => rw [hx] at h; simp at h
        | some r =>
          rw [hx] at h
          simp at h
          subst h
          rw [List.count_cons, List.count_cons, ih _ _ hx]

/-- Replacement-text side condition of every operator-pass entry, for
every bracket character. -/
theorem opList_bracket_side : ∀ b ∈ bracketsList, ∀ p ∈ opList,
    p.2.count b = if b = p.1 then 1 else 0 := by decide

/-- Bracket characters are not whitespace. -/
theorem bracketsList_not_space : ∀ b ∈ bracketsList, isSpace b = false := by decide

/-- Bracket characters are not semicolons. -/
theorem bracketsList_not_semi : ∀ b ∈ bracketsList, ¬(b = ';') := by decide

/-- The operator fold preserves the count of every bracket character. -/
theorem opFold_count (b : Char) (hb : isSpace b = false) :
    ∀ ops, (∀ p ∈ ops, p.2.count b = if b = p.1 then 1 else 0) →
    ∀ l out, opFold ops l = some out → out.count b = l.count b := by
  intro ops
  induction ops with
  | nil =>
    intro _ l out h
    simp [opFold] at h
    subst h
    rfl
  | cons p rest ih =>
    intro hside l out h
    rw [opFold] at h
    obtain ⟨x, hx, hrest⟩ := Option.bind_eq_some.mp h
    rw [ih (fun q hq => hside q (List.mem_cons_of_mem p hq)) x out hrest]
    exact opPass_count p.1 p.2 b hb (hside p (List.mem_cons_self p rest)) _ _ _ hx

/-- The bracket fold preserves the count of every non-whitespace
character. -/
theorem bracketFold_count (b : Char) (hb : isSpace b = false) :
    ∀ bs l out, bracketFold bs l = some out → out.count b = l.count b := by
  intro bs
  induction bs with
  | nil =>
    intro l out h
    simp [bracketFold] at h
    subst h
    rfl
  | cons q rest ih =>
    intro l out h
    rw [bracketFold] at h
    obtain ⟨x, hx, hrest⟩ := Option.bind_eq_some.mp h
    rw [ih x out hrest]
    refine opPass_count q [q] b hb ?_ _ _ _ hx
    by_cases hbq : b = q
    · simp [hbq]
    · have : (q == b) = false := beq_eq_false_iff_ne.mpr (fun e => hbq e.symm)
      simp [hbq, this]

/-- Claim C1, amended: for every input containing no `//` and no `/*`
(so that comment stripping, which can delete brackets inside comment
text, does not fire) and with shorten-vars disabled (shield corruption
can drop literal text), the count of each bracket character `{`, `}`,
`[`, `]`, `(`, `)` in the output of `Minify` equals its count in the
input, for either setting of preserve-license: the whitespace, operator,
semicolon, function-keyword, newline, comma and bracket passes never
create or delete these characters. -/
theorem minify_bracketCounts (s : String) (pl : Bool) (b : Char) (out : String)
    (hbmem : b ∈ bracketsList)
    (h1 : occurs "//".data s.data = false)
    (h2 : occurs "/*".data s.data = false)
    (hout : Minify s pl false = some out) :
    out.data.count b = s.data.count b := by
  have hb : isSpace b = false := bracketsList_not_space b hbmem
  have hbsemi : ¬(b = ';') := bracketsList_not_semi b hbmem
  rw [Minify] at hout
  have hlic : (if pl then findLicense s.data else none) = none := by
    cases pl
    · rfl
    · simp [findLicense_none s.data h2]
  rw [hlic] at hout
  obtain ⟨j0, hj0, hmk⟩ := Option.map_eq_some'.mp hout
  rw [minifyCore] at hj0
  obtain ⟨a, ha, hrest1⟩ := Option.bind_eq_some.mp hj0
  rw [stripLineComments_id (s.data.length + 1) s.data (by omega) h1] at ha
  have ha2 : a = s.data := by
    injection ha with ha
    exact ha.symm
  subst ha2
  obtain ⟨a2, ha2, hrest2⟩ := Option.bind_eq_some.mp hrest1
  rw [stripBlockComments_id (s.data.length + 1) s.data (by omega) h2] at ha2
  have ha3 : a2 = s.data := by
    injection ha2 with ha2
    exact ha2.symm
  subst ha3
  obtain ⟨c, hc, hrest3⟩ := Option.bind_eq_some.mp hrest2
  have hccount : c.count b = (trimEdges s.data).count b := collapseSpaces_count b hb _ _ _ hc
  obtain ⟨d, hd, hrest4⟩ := Option.bind_eq_some.mp hrest3
  have hdcount : d.count b = c.count b :=
    opFold_count b hb opList (fun p hp => opList_bracket_side b hbmem p hp) c d hd
  obtain ⟨e, he, hrest5⟩ := Option.bind_eq_some.mp hrest4
  have hecount : e.count b = d.count b := semiPass_count b hbsemi _ _ _ he
  obtain ⟨g, hg, hrest6⟩ := Option.bind_eq_some.mp hrest5
  have hgcount : g.count b = e.count b := functionPass_count b hb _ _ _ hg
  obtain ⟨hn, hhn, hrest7⟩ := Option.bind_eq_some.mp hrest6
  have hhcount : hn.count b = g.count b := newlinePass_count b hb _ _ _ hhn
  obtain ⟨i, hi, hrest8⟩ := Option.bind_eq_some.mp hrest7
  have hicount : i.count b = hn.count b := commaPass_count b hb _ _ _ hi
  obtain ⟨j, hj, hrest9⟩ := Option.bind_eq_some.mp hrest8
  have hjcount : j.count b = i.count b := bracketFold_count b hb bracketsList _ _ hj
  simp only [Bool.false_eq_true, if_false] at hrest9
  have hj0eq : j0 = j := by
    injection hrest9 with hr
    exact hr.symm
  subst hj0eq
  have hout2 : out.data = j0 := by
    rw [← hmk]
  rw [hout2, hjcount, hicount, hhcount, hgcount, hecount, hdcount, hccount,
    trimEdges_count b hb]

/-- Witness for the amended claim C1 on the input `a ( b )`. -/
theorem minify_bracketCounts_witness :
    '(' ∈ bracketsList ∧
    occurs "//".data ("a ( b )" : String).data = false ∧
    occurs "/*".data ("a ( b )" : String).data = false ∧
    Minify "a ( b )" false false = some "a(b)" ∧
    ("a(b)" : String).data.count '(' = ("a ( b )" : String).data.count '(' :=
  ⟨by decide, by decide, by decide, by rfl,
    minify_bracketCounts "a ( b )" false '(' "a(b)" (by decide) (by decide)
      (by decide) (by rfl)⟩

/-! ## Newline elimination (claim C9): the newline pass removes every
newline, and no later pass introduces one. -/

/-- Membership cannot be created by `dropWhile`. -/
theorem not_mem_dropWhile (x : Char) (p : Char → Bool) (l : List Char) (h : x ∉ l) :
    x ∉ l.dropWhile p :=
  fun hx => h ((List.dropWhile_suffix p).sublist.subset hx)

/-- Membership cannot be created by `takeWhile`. -/
theorem not_mem_takeWhile (x : Char) (p : Char → Bool) (l : List Char) (h : x ∉ l) :
    x ∉ l.takeWhile p :=
  fun hx => h ((List.takeWhile_prefix p).sublist.subset hx)

/-- Membership cannot be created by `tail`. -/
theorem not_mem_tail (x : Char) (l : List Char) (h : x ∉ l) : x ∉ l.tail := by
  cases l with
  | nil => simp
  | cons c rest => simp at h ⊢; exact h.2

/-- The newline pass removes every newline character. -/
theorem newlinePass_no_nl : ∀ f l out, newlinePass f l = some out → '\n' ∉ out := by
  intro f
  induction f with
  | zero => intro l out h; simp [newlinePass] at h
  | succ f ih =>
    intro l out h
    match l with
    | [] => simp [newlinePass] at h; subst h; simp
    | c :: rest =>
      rw [newlinePass] at h
      split at h
      · exact ih _ _ h
      · rename_i hc
        cases hx : newlinePass f rest with
        | none => rw [hx] at h; simp at h
        | some r =>
          rw [hx] at h
          simp at h
          subst h
          simp only [List.mem_cons, not_or]
          exact ⟨fun e => hc e.symm, ih _ _ hx⟩

/-- The single-character pass introduces no character outside its
replacement text. -/
theorem opPass_not_mem (op : Char) (repl : List Char) (x : Char)
    (hrepl : x ∉ repl) :
    ∀ f l out, opPass op repl f l = some out → x ∉ l → x ∉ out := by
  intro f
  induction f with
  | zero => intro l out h; simp [opPass] at h
  | succ f ih =>
    intro l out h hx
    match l with
    | [] => simp [opPass] at h; subst h; simp
    | c :: rest =>
      have hxc : ¬(x = c) := fun e => hx (by rw [e]; simp)
      have hxrest : x ∉ rest := fun e => hx (by simp [e])
      rw [opPass] at h
      split at h
      · cases hy : opPass op repl f (rest.dropWhile isSpace) with
        | none => rw [hy] at h; simp at h
        | some r =>
          rw [hy] at h
          simp at h
          subst h
          simp only [List.mem_append, not_or]
          exact ⟨hrepl, ih _ _ hy (not_mem_dropWhile x isSpace rest hxrest)⟩
      · split at h
        · split at h
          · cases hy : opPass op repl f ((rest.dropWhile isSpace).tail.dropWhile isSpace) with
            | none => rw [hy] at h; simp at h
            | some r =>
              rw [hy] at h
              simp at h
              subst h
              simp only [List.mem_append, not_or]
              refine ⟨hrepl, ih _ _ hy ?_⟩
              exact not_mem_dropWhile x isSpace _
                (not_mem_tail x _ (not_mem_dropWhile x isSpace rest hxrest))
          · split at h
            · simp at h
              subst h
              exact hx
            · cases hy : opPass op repl f (rest.dropWhile isSpace) with
              | none => rw [hy] at h; simp at h
              | some r =>
                rw [hy] at h
                simp at h
                subst h
                simp only [List.mem_cons, List.mem_append, not_or]
                exact ⟨hxc, not_mem_takeWhile x isSpace rest hxrest,
                  ih _ _ hy (not_mem_dropWhile x isSpace rest hxrest)⟩
        · cases hy : opPass op repl f rest with
          | none => rw [hy] at h; simp at h
          | some r =>
            rw [hy] at h
            simp at h
            subst h
            simp only [List.mem_cons, not_or]
            exact ⟨hxc, ih _ _ hy hxrest⟩

/-- The comma pass introduces only commas. -/
theorem commaPass_not_mem (x : Char) (hx : ¬(x = ',')) :
    ∀ f l out, commaPass f l = some out → x ∉ l → x ∉ out := by
  intro f
  induction f with
  | zero => intro l out h; simp [commaPass] at h
  | succ f ih =>
    intro l out h hxl
    match l with
    | [] => simp [commaPass] at h; subst h; simp
    | c :: rest =>
      have hxc : ¬(x = c) := fun e => hxl (by rw [e]; simp)
      have hxrest : x ∉ rest := fun e => hxl (by simp [e])
      rw [commaPass] at h
      split at h
      · cases hy : commaPass f (rest.dropWhile isSpace) with
        | none => rw [hy] at h; simp at h
        | some r =>
          rw [hy] at h
          simp at h
          subst h
          simp only [List.mem_cons, not_or]
          exact ⟨hx, ih _ _ hy (not_mem_dropWhile x isSpace rest hxrest)⟩
      · cases hy : commaPass f rest with
        | none => rw [hy] at h; simp at h
        | some r =>
          rw [hy] at h
          simp at h
          subst h
          simp only [List.mem_cons, not_or]
          exact ⟨hxc, ih _ _ hy hxrest⟩

/-- The bracket passes introduce only bracket characters. -/
theorem bracketFold_not_mem (x : Char) (hx : x ∉ bracketsList) :
    ∀ bs, (∀ b ∈ bs, b ∈ bracketsList) →
    ∀ l out, bracketFold bs l = some out → x ∉ l → x ∉ out := by
  intro bs
  induction bs with
  | nil =>
    intro _ l out h hxl
    simp [bracketFold] at h
    subst h
    exact hxl
  | cons q rest ih =>
    intro hsub l out h hxl
    rw [bracketFold] at h
    obtain ⟨y, hy, hrest⟩ := Option.bind_eq_some.mp h
    have hq : x ∉ [q] := by
      simp only [List.mem_singleton]
      intro e
      exact hx (e ▸ hsub q (List.mem_cons_self q rest))
    exact ih (fun b hb => hsub b (List.mem_cons_of_mem q hb)) y out hrest
      (opPass_not_mem q [q] x hq _ _ _ hy hxl)

/-- Splitting at the closing quote decomposes the buffer. -/
theorem splitQuote_eq : ∀ q l content rem, splitQuote q l = some (content, rem) →
    l = content ++ q :: rem := by
  intro q l
  induction l with
  | nil => intro content rem h; simp [splitQuote] at h
  | cons c rest ih =>
    intro content rem h
    rw [splitQuote] at h
    split at h
    · rename_i hc
      simp at h
      obtain ⟨h1, h2⟩ := h
      subst h1 h2 hc
      rfl
    · cases hx : splitQuote q rest with
      | none => rw [hx] at h; simp at h
      | some p =>
        rw [hx] at h
        simp at h
        obtain ⟨h1, h2⟩ := h
        subst h1 h2
        rw [ih p.1 p.2 (by rw [hx])]
        rfl

/-- Splitting at the block-comment closer decomposes the buffer. -/
theorem splitClose_eq : ∀ l a rem, splitClose l = some (a, rem) →
    l = a ++ rem := by
  intro l
  induction l with
  | nil => intro a rem h; simp [splitClose] at h
  | cons c rest ih =>
    intro a rem h
    rw [splitClose] at h
    split at h
    · rename_i hc
      simp only [Bool.and_eq_true, decide_eq_true_eq] at hc
      obtain ⟨d, t, hdt, hd⟩ := headSat_eq _ _ hc.2
      simp only [decide_eq_true_eq] at hd
      simp at h
      obtain ⟨h1, h2⟩ := h
      subst h1
      rw [← h2, hc.1, hdt, hd]
      rfl
    · cases hx : splitClose rest with
      | none => rw [hx] at h; simp at h
      | some p =>
        rw [hx] at h
        simp at h
        obtain ⟨h1, h2⟩ := h
        subst h1 h2
        rw [ih p.1 p.2 (by rw [hx])]
        rfl

/-- Digit strings draw their characters from the digit list. -/
theorem natDigits_mem (n : Nat) : ∀ x ∈ natDigits n, x ∈ digitsList := by
  induction n using Nat.strong_induction_on with
  | _ n ih =>
    intro x hx
    by_cases h10 : n < 10
    · rw [natDigits_lt10 n h10] at hx
      rw [List.mem_singleton] at hx
      subst hx
      have hk : ∀ k < 10, digitsList.getD k '0' ∈ digitsList := by decide
      exact hk n h10
    · rw [natDigits_ge10 n (by omega)] at hx
      rw [List.mem_append] at hx
      cases hx with
      | inl hx => exact ih (n / 10) (Nat.div_lt_self (by omega) (by omega)) x hx
      | inr hx =>
        rw [List.mem_singleton] at hx
        subst hx
        have hk : ∀ k < 10, digitsList.getD k '0' ∈ digitsList := by decide
        exact hk (n % 10) (by omega)

/-- Placeholders never contain a newline. -/
theorem placeholderChars_no_nl (k : Nat) : '\n' ∉ placeholderChars k := by
  rw [placeholderChars]
  simp only [List.mem_append, not_or]
  refine ⟨⟨by decide, ?_⟩, by decide⟩
  intro hmem
  have := natDigits_mem k '\n' hmem
  revert this
  decide

/-- Generated short names never contain a newline. -/
theorem generateVarName_no_nl (n : Nat) : '\n' ∉ (generateVarName n).1 := by
  have hch : alphabetList.getD (n % 26) 'a' ≠ '\n' := by
    have h26 : n % 26 < 26 := Nat.mod_lt n (by omega)
    have hk : ∀ k < 26, alphabetList.getD k 'a' ≠ '\n' := by decide
    exact hk (n % 26) h26
  have hnd : '\n' ∉ natDigits (n / 26) := by
    intro hmem
    have hmem2 := natDigits_mem (n / 26) '\n' hmem
    revert hmem2
    decide
  by_cases h0 : n / 26 = 0
  · have hgv : (generateVarName n).1 = [alphabetList.getD (n % 26) 'a'] := by
      rw [generateVarName]
      simp only [h0, if_pos rfl]
      rfl
    rw [hgv, List.mem_singleton]
    exact fun e => hch e.symm
  · have hgv : (generateVarName n).1
        = alphabetList.getD (n % 26) 'a' :: natDigits (n / 26) := by
      rw [generateVarName]
      simp only [if_neg h0]
    rw [hgv]
    simp only [List.mem_cons, not_or]
    exact ⟨fun e => hch e.symm, hnd⟩

/-- Shielding preserves newline-freeness of the buffer and stores only
newline-free literals. -/
theorem shieldStrings_no_nl : ∀ f k l out tab,
    shieldStrings f k l = some (out, tab) → '\n' ∉ l →
    '\n' ∉ out ∧ ∀ p ∈ tab, '\n' ∉ p.2 := by
  intro f
  induction f with
  | zero => intro k l out tab h; simp [shieldStrings] at h
  | succ f ih =>
    intro k l out tab h hnl
    match l with
    | [] =>
      simp [shieldStrings] at h
      obtain ⟨h1, h2⟩ := h
      subst h1 h2
      simp
    | c :: rest =>
      have hxc : ¬('\n' = c) := fun e => hnl (by rw [e]; simp)
      have hxrest : '\n' ∉ rest := fun e => hnl (by simp [e])
      rw [shieldStrings] at h
      split at h
      · cases hq : splitQuote c rest with
        | none =>
          rw [hq] at h
          dsimp only at h
          cases hx : shieldStrings f k rest with
          | none => rw [hx] at h; simp at h
          | some p =>
            rw [hx] at h
            simp at h
            obtain ⟨h1, h2⟩ := h
            subst h1 h2
            obtain ⟨ho, ht⟩ := ih _ _ _ _ hx hxrest
            exact ⟨by simp only [List.mem_cons, not_or]; exact ⟨hxc, ho⟩, ht⟩
        | some q =>
          obtain ⟨content, rem⟩ := q
          rw [hq] at h
          dsimp only at h
          cases hx : shieldStrings f (k + 1) rem with
          | none => rw [hx] at h; simp at h
          | some p =>
            rw [hx] at h
            simp at h
            obtain ⟨h1, h2⟩ := h
            subst h1 h2
            have hsplit := splitQuote_eq c rest content rem hq
            have hxq2 : '\n' ∉ rem := by
              intro hm
              exact hxrest (by rw [hsplit]; simp [hm])
            have hxq1 : '\n' ∉ content := by
              intro hm
              exact hxrest (by rw [hsplit]; simp [hm])
            obtain ⟨ho, ht⟩ := ih _ _ _ _ hx hxq2
            refine ⟨?_, ?_⟩
            · simp only [List.mem_append, not_or]
              exact ⟨placeholderChars_no_nl k, ho⟩
            · intro p hp
              rw [List.mem_cons] at hp
              cases hp with
              | inl hp =>
                subst hp
                simp only [List.mem_cons, List.mem_append, not_or]
                exact ⟨hxc, hxq1, hxc, by simp⟩
              | inr hp => exact ht p hp
      · cases hx : shieldStrings f k rest with
        | none => rw [hx] at h; simp at h
        | some p =>
          rw [hx] at h
          simp at h
          obtain ⟨h1, h2⟩ := h
          subst h1 h2
          obtain ⟨ho, ht⟩ := ih _ _ _ _ hx hxrest
          exact ⟨by simp only [List.mem_cons, not_or]; exact ⟨hxc, ho⟩, ht⟩

/-- Membership cannot be created by `drop`. -/
theorem not_mem_drop (x : Char) (n : Nat) (l : List Char) (h : x ∉ l) :
    x ∉ l.drop n :=
  fun hx => h ((List.drop_suffix n l).sublist.subset hx)

/-- Keywords contain no newline. -/
theorem kwSplit_no_nl (l kw a : List Char) (h : kwSplit l = some (kw, a)) :
    '\n' ∉ kw := by
  rw [kwSplit] at h
  split at h
  · simp at h; rw [← h.1]; decide
  · split at h
    · simp at h; rw [← h.1]; decide
    · split at h
      · simp at h; rw [← h.1]; decide
      · simp at h

/-- The keyword remainder is a suffix of the input. -/
theorem kwSplit_not_mem (x : Char) (l kw a : List Char) (h : kwSplit l = some (kw, a))
    (hx : x ∉ l) : x ∉ a := by
  rw [kwSplit] at h
  split at h
  · simp at h; rw [← h.2]; exact not_mem_drop x 3 l hx
  · split at h
    · simp at h; rw [← h.2]; exact not_mem_drop x 3 l hx
    · split at h
      · simp at h; rw [← h.2]; exact not_mem_drop x 5 l hx
      · simp at h

/-- The identifier-split remainder only uses characters of the input. -/
theorem identSplit_not_mem (x : Char) (l ident rem : List Char)
    (h : identSplit l = some (ident, rem)) (hx : x ∉ l) : x ∉ rem := by
  match l with
  | [] => simp [identSplit] at h
  | c :: rest =>
    have hxc : ¬(x = c) := fun e => hx (by rw [e]; simp)
    have hxrest : x ∉ rest := fun e => hx (by simp [e])
    rw [identSplit] at h
    split at h
    · split at h
      · simp at h
      · simp at h
        obtain ⟨-, h2⟩ := h
        rw [← h2]
        simp only [List.mem_append, not_or]
        constructor
        · apply not_mem_drop
          simp only [List.mem_cons, not_or]
          exact ⟨hxc, not_mem_takeWhile x isIdentChar rest hxrest⟩
        · exact not_mem_dropWhile x isIdentChar rest hxrest
    · simp at h

/-- A successful table lookup returns a stored short name. -/
theorem vmLookup_mem (vm : List (List Char × List Char)) (key short : List Char)
    (h : vmLookup vm key = some short) : ∃ p ∈ vm, p.2 = short := by
  rw [vmLookup] at h
  cases hf : vm.find? (fun p => p.1 == key) with
  | none => rw [hf] at h; simp at h
  | some pr =>
    rw [hf] at h
    simp at h
    exact ⟨pr, List.mem_of_find?_eq_some hf, h⟩

/-- The declaration pass preserves newline-freeness of the buffer and of
every stored short name. -/
theorem declPass_no_nl : ∀ f vm cnt prev l out,
    declPass f vm cnt prev l = some out →
    (∀ p ∈ vm, '\n' ∉ p.2) → '\n' ∉ l →
    '\n' ∉ out.1 ∧ ∀ p ∈ out.2.1, '\n' ∉ p.2 := by
  intro f
  induction f with
  | zero => intro vm cnt prev l out h; simp [declPass] at h
  | succ f ih =>
    intro vm cnt prev l out h hvm hnl
    match l with
    | [] =>
      simp [declPass] at h
      rw [← h]
      exact ⟨by simp, hvm⟩
    | c :: rest =>
      have hxc : ¬('\n' = c) := fun e => hnl (by rw [e]; simp)
      have hxrest : '\n' ∉ rest := fun e => hnl (by simp [e])
      rw [declPass] at h
      split at h
      · cases hkw : kwSplit (c :: rest) with
        | none =>
          rw [hkw] at h
          dsimp only at h
          cases hx : declPass f vm cnt (isWordChar c) rest with
          | none => rw [hx] at h; simp at h
          | some r =>
            rw [hx] at h
            simp at h
            obtain ⟨hb, hv⟩ := ih vm cnt (isWordChar c) rest r hx hvm hxrest
            rw [← h]
            exact ⟨by simp only [List.mem_cons, not_or]; exact ⟨hxc, hb⟩, hv⟩
        | some pkw =>
          obtain ⟨kw, afterKw⟩ := pkw
          rw [hkw] at h
          dsimp only at h
          have hkwnl : '\n' ∉ kw := kwSplit_no_nl _ _ _ hkw
          have hafter : '\n' ∉ afterKw := kwSplit_not_mem '\n' _ _ _ hkw hnl
          split at h
          · cases hid : identSplit (afterKw.dropWhile isSpace) with
            | none =>
              rw [hid] at h
              dsimp only at h
              cases hx : declPass f vm cnt (isWordChar c) rest with
              | none => rw [hx] at h; simp at h
              | some r =>
                rw [hx] at h
                simp at h
                obtain ⟨hb, hv⟩ := ih vm cnt (isWordChar c) rest r hx hvm hxrest
                rw [← h]
                exact ⟨by simp only [List.mem_cons, not_or]; exact ⟨hxc, hb⟩, hv⟩
            | some pid =>
              obtain ⟨ident, remainder⟩ := pid
              rw [hid] at h
              dsimp only at h
              have hrem : '\n' ∉ remainder :=
                identSplit_not_mem '\n' _ _ _ hid
                  (not_mem_dropWhile '\n' isSpace afterKw hafter)
              cases hvml : vmLookup vm ident with
              | some short =>
                rw [hvml] at h
                dsimp only at h
                cases hx : declPass f vm cnt true remainder with
                | none => rw [hx] at h; simp at h
                | some r =>
                  rw [hx] at h
                  simp at h
                  obtain ⟨hb, hv⟩ := ih vm cnt true remainder r hx hvm hrem
                  obtain ⟨pr, hprmem, hpr⟩ := vmLookup_mem vm ident short hvml
                  have hshort : '\n' ∉ short := hpr ▸ hvm pr hprmem
                  rw [← h]
                  refine ⟨?_, hv⟩
                  simp only [List.mem_append, List.mem_cons, not_or]
                  exact ⟨hkwnl, by decide, hshort, hb⟩
              | none =>
                rw [hvml] at h
                dsimp only at h
                cases hx : declPass f (vm ++ [(ident, (generateVarName cnt).1)])
                    (cnt + 1) true remainder with
                | none => rw [hx] at h; simp at h
                | some r =>
                  rw [hx] at h
                  simp at h
                  have hvm2 : ∀ p ∈ vm ++ [(ident, (generateVarName cnt).1)], '\n' ∉ p.2 := by
                    intro p hp
                    rw [List.mem_append] at hp
                    cases hp with
                    | inl hp => exact hvm p hp
                    | inr hp =>
                      rw [List.mem_singleton] at hp
                      subst hp
                      exact generateVarName_no_nl cnt
                  obtain ⟨hb, hv⟩ := ih _ _ true remainder r hx hvm2 hrem
                  rw [← h]
                  refine ⟨?_, hv⟩
                  simp only [List.mem_append, List.mem_cons, not_or]
                  exact ⟨hkwnl, by decide, generateVarName_no_nl cnt, hb⟩
          · cases hx : declPass f vm cnt (isWordChar c) rest with
            | none => rw [hx] at h; simp at h
            | some r =>
              rw [hx] at h
              simp at h
              obtain ⟨hb, hv⟩ := ih vm cnt (isWordChar c) rest r hx hvm hxrest
              rw [← h]
              exact ⟨by simp only [List.mem_cons, not_or]; exact ⟨hxc, hb⟩, hv⟩
      · cases hx : declPass f vm cnt (isWordChar c) rest with
        | none => rw [hx] at h; simp at h
        | some r =>
          rw [hx] at h
          simp at h
          obtain ⟨hb, hv⟩ := ih vm cnt (isWordChar c) rest r hx hvm hxrest
          rw [← h]
          exact ⟨by simp only [List.mem_cons, not_or]; exact ⟨hxc, hb⟩, hv⟩

/-- Whole-word replacement introduces no character outside its
replacement text. -/
theorem wholeWordReplace_not_mem (orig short : List Char) (x : Char)
    (hx : x ∉ short) :
    ∀ f prev l out, wholeWordReplace orig short f prev l = some out →
    x ∉ l → x ∉ out := by
  intro f
  induction f with
  | zero => intro prev l out h; simp [wholeWordReplace] at h
  | succ f ih =>
    intro prev l out h hxl
    match l with
    | [] => simp [wholeWordReplace] at h; subst h; simp
    | c :: rest =>
      have hxc : ¬(x = c) := fun e => hxl (by rw [e]; simp)
      have hxrest : x ∉ rest := fun e => hxl (by simp [e])
      rw [wholeWordReplace] at h
      split at h
      · simp at h
        subst h
        exact hxl
      · split at h
        · cases hy : wholeWordReplace orig short f true ((c :: rest).drop orig.length) with
          | none => rw [hy] at h; simp at h
          | some r =>
            rw [hy] at h
            simp at h
            subst h
            simp only [List.mem_append, not_or]
            exact ⟨hx, ih _ _ _ hy (not_mem_drop x orig.length (c :: rest) hxl)⟩
        · cases hy : wholeWordReplace orig short f (isWordChar c) rest with
          | none => rw [hy] at h; simp at h
          | some r =>
            rw [hy] at h
            simp at h
            subst h
            simp only [List.mem_cons, not_or]
            exact ⟨hxc, ih _ _ _ hy hxrest⟩

/-- The usage-substitution fold preserves newline-freeness when every
table entry's replacement is newline-free. -/
theorem substUsages_no_nl : ∀ vm code out, substUsages vm code = some out →
    (∀ p ∈ vm, '\n' ∉ p.2) → '\n' ∉ code → '\n' ∉ out := by
  intro vm
  induction vm with
  | nil =>
    intro code out h _ hnc
    simp [substUsages] at h
    subst h
    exact hnc
  | cons p rest ih =>
    intro code out h hvm hnc
    rw [substUsages] at h
    obtain ⟨x, hx, hrest⟩ := Option.bind_eq_some.mp h
    have hnx : '\n' ∉ x := by
      rw [usageApply] at hx
      split at hx
      · simp at hx; subst hx; exact hnc
      · exact wholeWordReplace_not_mem p.1 p.2 '\n'
          (hvm p (List.mem_cons_self p rest)) _ _ _ _ hx hnc
    exact ih x out hrest (fun q hq => hvm q (List.mem_cons_of_mem p hq)) hnx

/-- Substring replacement introduces no character outside its
replacement text. -/
theorem replaceSub_not_mem (pat repl : List Char) (x : Char) (hx : x ∉ repl) :
    ∀ f l out, replaceSub pat repl f l = some out → x ∉ l → x ∉ out := by
  intro f
  induction f with
  | zero => intro l out h; simp [replaceSub] at h
  | succ f ih =>
    intro l out h hxl
    match l with
    | [] => simp [replaceSub] at h; subst h; simp
    | c :: rest =>
      have hxc : ¬(x = c) := fun e => hxl (by rw [e]; simp)
      have hxrest : x ∉ rest := fun e => hxl (by simp [e])
      rw [replaceSub] at h
      split at h
      · simp at h
        subst h
        exact hxl
      · split at h
        · cases hy : replaceSub pat repl f ((c :: rest).drop pat.length) with
          | none => rw [hy] at h; simp at h
          | some r =>
            rw [hy] at h
            simp at h
            subst h
            simp only [List.mem_append, not_or]
            exact ⟨hx, ih _ _ hy (not_mem_drop x pat.length (c :: rest) hxl)⟩
        · cases hy : replaceSub pat repl f rest with
          | none => rw [hy] at h; simp at h
          | some r =>
            rw [hy] at h
            simp at h
            subst h
            simp only [List.mem_cons, not_or]
            exact ⟨hxc, ih _ _ hy hxrest⟩

/-- The restore fold preserves newline-freeness when every stored
literal is newline-free. -/
theorem unshieldAll_no_nl : ∀ tab code out, unshieldAll tab code = some out →
    (∀ p ∈ tab, '\n' ∉ p.2) → '\n' ∉ code → '\n' ∉ out := by
  intro tab
  induction tab with
  | nil =>
    intro code out h _ hnc
    simp [unshieldAll] at h
    subst h
    exact hnc
  | cons p rest ih =>
    intro code out h htab hnc
    obtain ⟨q, lit⟩ := p
    rw [unshieldAll] at h
    obtain ⟨x, hx, hrest⟩ := Option.bind_eq_some.mp h
    have hnx : '\n' ∉ x :=
      replaceSub_not_mem q lit '\n'
        (htab (q, lit) (List.mem_cons_self (q, lit) rest)) _ _ _ hx hnc
    exact ih x out hrest (fun r hr => htab r (List.mem_cons_of_mem (q, lit) hr)) hnx

/-- The full renaming stage preserves newline-freeness. -/
theorem shortenVariableNames_no_nl (code out : List Char)
    (h : shortenVariableNames code = some out) (hnc : '\n' ∉ code) :
    '\n' ∉ out := by
  rw [shortenVariableNames] at h
  obtain ⟨sp, hsp, h2⟩ := Option.bind_eq_some.mp h
  obtain ⟨dp, hdp, h3⟩ := Option.bind_eq_some.mp h2
  obtain ⟨u, hu, h4⟩ := Option.bind_eq_some.mp h3
  obtain ⟨hshield, htab⟩ := shieldStrings_no_nl _ _ _ _ _ hsp hnc
  obtain ⟨hbuf, hvm⟩ := declPass_no_nl _ _ _ _ _ _ hdp (by simp) hshield
  have hu2 : '\n' ∉ u := substUsages_no_nl _ _ _ hu hvm hbuf
  exact unshieldAll_no_nl _ _ _ h4 htab hu2

/-- Claim C9: with preserve-license disabled, or with no marked leading
comment present, the output of `Minify` contains no newline character:
the `\n+` pass removes every newline of the buffer and the later passes
(comma, brackets, renaming) never introduce one. -/
theorem minify_no_newlines (s : String) (pl sv : Bool) (out : String)
    (hpl : pl = false ∨ findLicense s.data = none)
    (hout : Minify s pl sv = some out) :
    '\n' ∉ out.data := by
  rw [Minify] at hout
  have hlic : (if pl then findLicense s.data else none) = none := by
    cases pl
    · rfl
    · cases hpl with
      | inl h => cases h
      | inr h => simpa using h
  rw [hlic] at hout
  obtain ⟨j0, hj0, hmk⟩ := Option.map_eq_some'.mp hout
  rw [minifyCore] at hj0
  obtain ⟨a, _, hrest1⟩ := Option.bind_eq_some.mp hj0
  obtain ⟨b, _, hrest2⟩ := Option.bind_eq_some.mp hrest1
  obtain ⟨c, _, hrest3⟩ := Option.bind_eq_some.mp hrest2
  obtain ⟨d, _, hrest4⟩ := Option.bind_eq_some.mp hrest3
  obtain ⟨e, _, hrest5⟩ := Option.bind_eq_some.mp hrest4
  obtain ⟨g, _, hrest6⟩ := Option.bind_eq_some.mp hrest5
  obtain ⟨hn, hhn, hrest7⟩ := Option.bind_eq_some.mp hrest6
  obtain ⟨i, hi, hrest8⟩ := Option.bind_eq_some.mp hrest7
  obtain ⟨j, hj, hrest9⟩ := Option.bind_eq_some.mp hrest8
  have hnonl : '\n' ∉ hn := newlinePass_no_nl _ _ _ hhn
  have hinl : '\n' ∉ i := commaPass_not_mem '\n' (by decide) _ _ _ hi hnonl
  have hjnl : '\n' ∉ j :=
    bracketFold_not_mem '\n' (by decide) bracketsList (fun b hb => hb) _ _ hj hinl
  have hj0nl : '\n' ∉ j0 := by
    split at hrest9
    · exact shortenVariableNames_no_nl j j0 hrest9 hjnl
    · injection hrest9 with hr
      rw [← hr]
      exact hjnl
  rw [← hmk]
  exact hj0nl

/-- Witness for claim C9 on a concrete multi-line input. -/
theorem minify_no_newlines_witness :
    (false = false ∨ findLicense ("a\nb\n\nc" : String).data = none) ∧
    Minify "a\nb\n\nc" false false = some "ab c" ∧
    '\n' ∉ ("ab c" : String).data :=
  ⟨Or.inl rfl, by rfl,
    minify_no_newlines "a\nb\n\nc" false false "ab c" (Or.inl rfl) (by rfl)⟩

/-! ## License preservation (claim C5). -/

/-- Scanning for the closer finds the first `*/` after a closer-free
prefix. -/
theorem splitClose_append : ∀ mid rest, occurs ['*', '/'] mid = false →
    splitClose (mid ++ '*' :: '/' :: rest) = some (mid ++ ['*', '/'], rest) := by
  intro mid
  induction mid with
  | nil =>
    intro rest _
    rfl
  | cons m mid2 ih =>
    intro rest hocc
    obtain ⟨hpre, hrest⟩ := occurs_cons_false _ _ _ hocc
    have hcond : (decide (m = '*') && headSat (fun d => decide (d = '/'))
        (mid2 ++ '*' :: '/' :: rest)) = false := by
      by_cases hm : m = '*'
      · cases mid2 with
        | nil => simp [headSat]
        | cons e mid3 =>
          by_cases he : e = '/'
          · exfalso
            have hyes : (['*', '/'] : List Char).isPrefixOf (m :: e :: mid3) = true := by
              rw [hm, he]
              exact List.isPrefixOf_iff_prefix.mpr ⟨mid3, rfl⟩
            rw [hyes] at hpre
            cases hpre
          · simp [headSat, he]
      · simp [hm]
    have hstep : splitClose ((m :: mid2) ++ '*' :: '/' :: rest)
        = (if (decide (m = '*') && headSat (fun d => decide (d = '/'))
              (mid2 ++ '*' :: '/' :: rest)) = true then
            some ((['*', '/'] : List Char), (mid2 ++ '*' :: '/' :: rest).tail)
          else (splitClose (mid2 ++ '*' :: '/' :: rest)).map
            (fun p => (m :: p.1, p.2))) := rfl
    rw [hstep, hcond]
    simp only [Bool.false_eq_true, if_false]
    rw [ih rest hrest]
    rfl

/-- Claim C5: when the input starts with a marked block comment
`/*!...*/` (the middle free of `*/`, so it is the comment the non-greedy
regex matches), `Minify` with preserve-license enabled returns an output
whose prefix up to and including the closing delimiter is byte-identical
to the input's original marked comment. -/
theorem minify_license_prefix (s : String) (sv : Bool) (mid rest : List Char)
    (hmid : occurs ['*', '/'] mid = false)
    (hs : s.data = '/' :: '*' :: '!' :: (mid ++ '*' :: '/' :: rest)) :
    ∃ out, Minify s true sv = some out ∧
      ('/' :: '*' :: '!' :: (mid ++ ['*', '/'])) <+: out.data ∧
      ('/' :: '*' :: '!' :: (mid ++ ['*', '/'])) <+: s.data := by
  have hfl : findLicense s.data = some ('/' :: '*' :: '!' :: (mid ++ ['*', '/']), rest) := by
    rw [hs, findLicense]
    have hpre : ("/*!".data).isPrefixOf ('/' :: '*' :: '!' :: (mid ++ '*' :: '/' :: rest)) = true :=
      List.isPrefixOf_iff_prefix.mpr ⟨_, rfl⟩
    rw [if_pos hpre]
    have hdrop : ('/' :: '*' :: '!' :: (mid ++ '*' :: '/' :: rest)).drop 3
        = mid ++ '*' :: '/' :: rest := rfl
    rw [hdrop, splitClose_append mid rest hmid]
    rfl
  obtain ⟨r, hr⟩ := Option.isSome_iff_exists.mp (minifyCore_isSome rest sv)
  refine ⟨String.mk (('/' :: '*' :: '!' :: (mid ++ ['*', '/'])) ++ '\n' :: r), ?_, ?_, ?_⟩
  · rw [Minify]
    have hif : (if true then findLicense s.data else none) = findLicense s.data := rfl
    rw [hif, hfl]
    dsimp only
    rw [hr]
    rfl
  · exact ⟨'\n' :: r, rfl⟩
  · rw [hs]
    exact ⟨rest, by simp⟩

/-- Witness for claim C5 on the input `/*! L */x`. -/
theorem minify_license_prefix_witness :
    occurs ['*', '/'] (" L " : String).data = false ∧
    ("/*! L */x" : String).data
      = '/' :: '*' :: '!' :: ((" L " : String).data ++ '*' :: '/' :: ("x" : String).data) ∧
    ∃ out, Minify "/*! L */x" true false = some out ∧
      ('/' :: '*' :: '!' :: ((" L " : String).data ++ ['*', '/'])) <+: out.data ∧
      ('/' :: '*' :: '!' :: ((" L " : String).data ++ ['*', '/'])) <+: ("/*! L */x" : String).data :=
  ⟨by decide, by rfl,
    minify_license_prefix "/*! L */x" false (" L " : String).data ("x" : String).data
      (by decide) (by rfl)⟩

/-! ## Shielding round trip and placeholder uniqueness (claims C2 and
C10, amended).  The analysis tracks every possible position of a
placeholder occurrence in the shielded buffer. -/

/-- Reserved fragment of every placeholder. -/
def strPat : List Char := "STR_".data

/-- Cons-normal form of a placeholder. -/
theorem placeholder_struct (k : Nat) :
    placeholderChars k = '_' :: '_' :: 'S' :: 'T' :: 'R' :: '_' :: (natDigits k ++ ['_', '_']) := by
  rw [placeholderChars]
  rfl

/-- Placeholders have at least nine characters. -/
theorem placeholder_length (k : Nat) : 9 ≤ (placeholderChars k).length := by
  rw [placeholder_struct]
  have := List.length_pos.mpr (natDigits_ne_nil k)
  simp
  omega

/-- Length bookkeeping for placeholders. -/
theorem placeholder_length_eq (k : Nat) :
    (placeholderChars k).length = 8 + (natDigits k).length := by
  rw [placeholder_struct]
  simp
  omega

/-- Placeholders are never empty. -/
theorem placeholder_ne_nil (k : Nat) : placeholderChars k ≠ [] := by
  rw [placeholder_struct]
  simp

/-- Occurrence test as the infix relation. -/
theorem occurs_iff_sub (pat : List Char) : ∀ l, occurs pat l = true ↔ pat <:+: l := by
  intro l
  induction l with
  | nil =>
    rw [occurs]
    constructor
    · intro h
      rw [List.isEmpty_iff.mp h]
    · intro h
      rw [List.eq_nil_of_infix_nil h]
      rfl
  | cons c rest ih =>
    rw [occurs, Bool.or_eq_true, List.isPrefixOf_iff_prefix, ih, List.infix_cons_iff]

/-- Occurrence-freeness is inherited by infixes. -/
theorem occurs_false_mono (pat l sub : List Char) (h : occurs pat l = false)
    (hsub : sub <:+: l) : occurs pat sub = false := by
  cases hx : occurs pat sub with
  | false => rfl
  | true =>
    rw [← h]
    exact ((occurs_iff_sub pat l).mpr (((occurs_iff_sub pat sub).mp hx).trans hsub)).symm

/-- The reserved fragment sits inside every placeholder. -/
theorem strPat_infix_placeholder (k : Nat) : strPat <:+: placeholderChars k := by
  refine ⟨['_', '_'], natDigits k ++ ['_', '_'], ?_⟩
  rw [placeholder_struct]
  rfl

/-- Getter transfer along `getD` for appends (left part). -/
theorem getD_append_left (l l2 : List Char) (i : Nat) (d : Char) (h : i < l.length) :
    (l ++ l2).getD i d = l.getD i d :=
  List.getD_append l l2 d i h

/-- Getter transfer along `getD` for appends (right part). -/
theorem getD_append_right (l l2 : List Char) (i : Nat) (d : Char) (h : l.length ≤ i) :
    (l ++ l2).getD i d = l2.getD (i - l.length) d := by
  rw [List.getD_eq_getElem?_getD, List.getD_eq_getElem?_getD, List.getElem?_append_right h]

/-- Getter transfer along `getD` for `drop`. -/
theorem getD_drop (l : List Char) (n i : Nat) (d : Char) :
    (l.drop n).getD i d = l.getD (n + i) d := by
  rw [List.getD_eq_getElem?_getD, List.getD_eq_getElem?_getD, List.getElem?_drop]

/-- Getter transfer along `getD` for `take`. -/
theorem getD_take (l : List Char) (n i : Nat) (d : Char) (h : i < n) :
    (l.take n).getD i d = l.getD i d := by
  rw [List.getD_eq_getElem?_getD, List.getD_eq_getElem?_getD, List.getElem?_take_of_lt h]

/-- Transfer of characters along a successful prefix test. -/
theorem isPrefixOf_getD (pat t : List Char) (h : pat.isPrefixOf t = true)
    (i : Nat) (hi : i < pat.length) (d : Char) : t.getD i d = pat.getD i d := by
  obtain ⟨u, hu⟩ := List.isPrefixOf_iff_prefix.mp h
  rw [← hu, getD_append_left pat u i d hi]

/-- Prefix length bound. -/
theorem isPrefixOf_length_le (pat t : List Char) (h : pat.isPrefixOf t = true) :
    pat.length ≤ t.length :=
  (List.isPrefixOf_iff_prefix.mp h).length_le

/-- Character of a placeholder at a digit position. -/
theorem placeholder_getD_digit (k i : Nat) (hi : i < (natDigits k).length) (d : Char) :
    (placeholderChars k).getD (6 + i) d = (natDigits k).getD i d := by
  rw [placeholder_struct]
  have h6 : ('_' :: '_' :: 'S' :: 'T' :: 'R' :: '_' :: (natDigits k ++ ['_', '_']))
      = ['_', '_', 'S', 'T', 'R', '_'] ++ (natDigits k ++ ['_', '_']) := rfl
  rw [h6]
  have hlen : (['_', '_', 'S', 'T', 'R', '_'] : List Char).length = 6 := rfl
  rw [show (6 + i) = (['_', '_', 'S', 'T', 'R', '_'] : List Char).length + i from by rw [hlen]]
  rw [getD_append_right _ _ _ d (by omega)]
  rw [hlen]
  rw [Nat.add_sub_cancel_left]
  exact getD_append_left _ _ i d hi

/-- Characters of the trailing underscores of a placeholder. -/
theorem placeholder_getD_tail (k t : Nat) (ht : t < 2) (d : Char) :
    (placeholderChars k).getD (6 + (natDigits k).length + t) d = '_' := by
  rw [placeholder_struct]
  have h6 : ('_' :: '_' :: 'S' :: 'T' :: 'R' :: '_' :: (natDigits k ++ ['_', '_']))
      = (['_', '_', 'S', 'T', 'R', '_'] ++ natDigits k) ++ ['_', '_'] := by simp
  rw [h6]
  have hlen : ((['_', '_', 'S', 'T', 'R', '_'] ++ natDigits k) : List Char).length
      = 6 + (natDigits k).length := by simp; omega
  rw [getD_append_right _ _ _ d (by omega), hlen]
  have : 6 + (natDigits k).length + t - (6 + (natDigits k).length) = t := by omega
  rw [this]
  interval_cases t <;> rfl

/-- A `getD` read at a valid index is a member of the list. -/
theorem getD_mem (l : List Char) (i : Nat) (d : Char) (h : i < l.length) :
    l.getD i d ∈ l := by
  induction l generalizing i with
  | nil => simp at h
  | cons c rest ih =>
    cases i with
    | zero => simp [List.getD_cons_zero]
    | succ n =>
      rw [List.getD_cons_succ]
      exact List.mem_cons_of_mem _ (ih n (by simpa using h))

/-- Digit characters of placeholders are decimal digits. -/
theorem placeholder_digit_mem (k i : Nat) (hi : i < (natDigits k).length) (d : Char) :
    (placeholderChars k).getD (6 + i) d ∈ digitsList := by
  rw [placeholder_getD_digit k i hi d]
  exact natDigits_mem k _ (getD_mem _ i d hi)

/-- Decimal digit characters are none of the placeholder frame
characters or quotes. -/
theorem digits_facts : ∀ x ∈ digitsList,
    x ≠ 'S' ∧ x ≠ 'T' ∧ x ≠ 'R' ∧ x ≠ '_' ∧ x ≠ '"' ∧ x ≠ squote := by decide

/-- The letter `S` occurs in a placeholder only at position two. -/
theorem placeholder_S_unique (k i : Nat) (hi : i < (placeholderChars k).length) (d : Char)
    (h : (placeholderChars k).getD i d = 'S') : i = 2 := by
  have hlen := placeholder_length_eq k
  by_cases h6 : i < 6
  · interval_cases i
    · rw [placeholder_struct] at h
      simp [List.getD_cons_zero] at h
    · rw [placeholder_struct] at h
      simp [List.getD_cons_succ, List.getD_cons_zero] at h
    · rfl
    · rw [placeholder_struct] at h
      simp [List.getD_cons_succ, List.getD_cons_zero] at h
    · rw [placeholder_struct] at h
      simp [List.getD_cons_succ, List.getD_cons_zero] at h
    · rw [placeholder_struct] at h
      simp [List.getD_cons_succ, List.getD_cons_zero] at h
  · by_cases hd : i < 6 + (natDigits k).length
    · have hmem := placeholder_digit_mem k (i - 6) (by omega) d
      rw [show 6 + (i - 6) = i from by omega] at hmem
      rw [h] at hmem
      exact absurd hmem (by decide)
    · have htail := placeholder_getD_tail k (i - (6 + (natDigits k).length)) (by omega) d
      rw [show 6 + (natDigits k).length + (i - (6 + (natDigits k).length)) = i from by omega] at htail
      rw [h] at htail
      exact absurd htail (by decide)

/-- No two adjacent underscores occur in a placeholder at positions one
through six. -/
theorem placeholder_no_pair (k δ : Nat) (h1 : 1 ≤ δ) (h5 : δ ≤ 5) (d : Char) :
    ¬((placeholderChars k).getD δ d = '_' ∧ (placeholderChars k).getD (δ + 1) d = '_') := by
  rintro ⟨ha, hb⟩
  have hpos : 0 < (natDigits k).length := List.length_pos.mpr (natDigits_ne_nil k)
  interval_cases δ
  · rw [placeholder_struct] at hb
    simp [List.getD_cons_succ, List.getD_cons_zero] at hb
  · rw [placeholder_struct] at ha
    simp [List.getD_cons_succ, List.getD_cons_zero] at ha
  · rw [placeholder_struct] at ha
    simp [List.getD_cons_succ, List.getD_cons_zero] at ha
  · rw [placeholder_struct] at ha
    simp [List.getD_cons_succ, List.getD_cons_zero] at ha
  · have hmem := placeholder_digit_mem k 0 hpos d
    rw [show 6 + 0 = 5 + 1 from rfl] at hmem
    rw [hb] at hmem
    exact absurd hmem (by decide)

/-- A successful prefix test against an append either stays in the left
part or consumes it entirely. -/
theorem isPrefixOf_append_split (u A B : List Char) (h : u.isPrefixOf (A ++ B) = true) :
    u.isPrefixOf A = true ∨
    (A = u.take A.length ∧ (u.drop A.length).isPrefixOf B = true) := by
  obtain ⟨t, ht⟩ := List.isPrefixOf_iff_prefix.mp h
  rcases List.append_eq_append_iff.mp ht with ⟨a2, hA, hB⟩ | ⟨c2, hu, hB⟩
  · left
    exact List.isPrefixOf_iff_prefix.mpr ⟨a2, hA.symm⟩
  · right
    constructor
    · rw [hu, List.take_left]
    · rw [hu, List.drop_left]
      exact List.isPrefixOf_iff_prefix.mpr ⟨t, hB.symm⟩

/-- Placeholders of distinct indices are distinct. -/
theorem placeholder_injective (j k : Nat) (h : placeholderChars j = placeholderChars k) :
    j = k := by
  rw [placeholder_struct, placeholder_struct] at h
  injection h with _ h
  injection h with _ h
  injection h with _ h
  injection h with _ h
  injection h with _ h
  injection h with _ h
  have := (List.append_inj' h rfl).1
  exact natDigits_injective j k this

/-- A placeholder that is a prefix of another placeholder equals it. -/
theorem placeholder_prefix_eq (j k : Nat)
    (h : (placeholderChars j).isPrefixOf (placeholderChars k) = true) : j = k := by
  have hlj := placeholder_length_eq j
  have hlk := placeholder_length_eq k
  have hle := isPrefixOf_length_le _ _ h
  by_cases hlt : (natDigits j).length < (natDigits k).length
  · exfalso
    have htr := isPrefixOf_getD _ _ h (6 + (natDigits j).length) (by omega) '!'
    have hj := placeholder_getD_tail j 0 (by omega) '!'
    rw [Nat.add_zero] at hj
    have hk := placeholder_digit_mem k (natDigits j).length hlt '!'
    rw [htr, hj] at hk
    exact absurd hk (by decide)
  · have heq : (placeholderChars j).length = (placeholderChars k).length := by omega
    have := List.IsPrefix.eq_of_length (List.isPrefixOf_iff_prefix.mp h) heq
    exact placeholder_injective j k this

/-- Placeholder characters come from a fixed alphabet free of quotes. -/
theorem placeholder_mem_chars (k : Nat) : ∀ x ∈ placeholderChars k,
    x = '_' ∨ x = 'S' ∨ x = 'T' ∨ x = 'R' ∨ x ∈ digitsList := by
  rw [placeholder_struct]
  intro x hx
  simp only [List.mem_cons, List.mem_append] at hx
  rcases hx with h | h | h | h | h | h | h
  · exact Or.inl h
  · exact Or.inl h
  · exact Or.inr (Or.inl h)
  · exact Or.inr (Or.inr (Or.inl h))
  · exact Or.inr (Or.inr (Or.inr (Or.inl h)))
  · exact Or.inl h
  · rcases h with h | h
    · exact Or.inr (Or.inr (Or.inr (Or.inr (natDigits_mem k x h))))
    · simp at h
      exact Or.inl h

/-- Placeholders contain no quote character. -/
theorem placeholder_no_quote (k : Nat) : ∀ x ∈ placeholderChars k,
    x ≠ '"' ∧ x ≠ squote := by
  intro x hx
  rcases placeholder_mem_chars k x hx with h | h | h | h | h
  · subst h; exact ⟨by decide, by decide⟩
  · subst h; exact ⟨by decide, by decide⟩
  · subst h; exact ⟨by decide, by decide⟩
  · subst h; exact ⟨by decide, by decide⟩
  · exact ⟨(digits_facts x h).2.2.2.2.1, (digits_facts x h).2.2.2.2.2⟩

/-- An occurrence-free buffer has no infix equal to the pattern. -/
theorem occurs_false_not_sub (pat l : List Char) (h : occurs pat l = false) :
    ¬ pat <:+: l := by
  intro hin
  have ht := (occurs_iff_sub pat l).mpr hin
  rw [h] at ht
  exact Bool.false_ne_true ht

/-- A prefix of a drop is an infix of the whole list. -/
theorem sub_of_prefix_drop (u v : List Char) (i : Nat) (h : u <+: v.drop i) : u <:+: v := by
  obtain ⟨t, ht⟩ := h
  exact ⟨v.take i, t, by rw [List.append_assoc, ht, List.take_append_drop]⟩

/-- A prefix short enough survives truncation. -/
theorem prefix_take_of_le (u v : List Char) (n : Nat) (h : u <+: v) (hn : u.length ≤ n) :
    u <+: v.take n := by
  obtain ⟨t, ht⟩ := h
  refine ⟨t.take (n - u.length), ?_⟩
  rw [← ht, List.take_append_eq_append_take, List.take_of_length_le hn]

/-- A quote-free pattern inside a buffer with a distinguished character
lies entirely on one side of that character. -/
theorem infix_split_at_char (pat x y : List Char) (q : Char) (hq : q ∉ pat) (hne : pat ≠ [])
    (h : pat <:+: x ++ q :: y) : pat <:+: x ∨ pat <:+: y := by
  obtain ⟨s, t, hst⟩ := h
  rcases List.append_eq_append_iff.mp hst with ⟨w, hxw, _⟩ | ⟨w, hsw, hqy⟩
  · exact Or.inl ⟨s, w, hxw.symm⟩
  · rcases List.append_eq_append_iff.mp hsw with ⟨v, hxv, hpv⟩ | ⟨v, _, hwv⟩
    · cases w with
      | nil =>
        rw [List.append_nil] at hpv
        exact Or.inl ⟨s, [], by rw [List.append_nil, hpv, ← hxv]⟩
      | cons w0 w' =>
        rw [List.cons_append] at hqy
        injection hqy with hw0 _
        refine absurd ?_ hq
        rw [hpv, hw0]
        exact List.mem_append_right v (List.mem_cons_self w0 w')
    · rw [hwv] at hqy
      cases v with
      | nil =>
        rw [List.nil_append] at hqy
        cases pat with
        | nil => exact absurd rfl hne
        | cons p0 pat' =>
          rw [List.cons_append] at hqy
          injection hqy with hp0 _
          refine absurd ?_ hq
          rw [hp0]
          exact List.mem_cons_self p0 pat'
      | cons v0 v' =>
        rw [List.cons_append, List.cons_append] at hqy
        injection hqy with _ hy
        exact Or.inr ⟨v', t, hy.symm⟩

/-- The first six placeholder characters. -/
theorem strPat_take6 (m : Nat) :
    (placeholderChars m).take 6 = ['_', '_', 'S', 'T', 'R', '_'] := by
  rw [placeholder_struct]
  rfl

/-- The reserved fragment sits inside any placeholder truncation of at
least six characters. -/
theorem strPat_infix_take (m δ : Nat) (h6 : 6 ≤ δ) :
    strPat <:+: (placeholderChars m).take δ := by
  have h1 : strPat <:+: (placeholderChars m).take 6 := by
    rw [strPat_take6]
    exact ⟨['_', '_'], [], rfl⟩
  have h2 : (placeholderChars m).take 6 <+: (placeholderChars m).take δ := by
    have ht := List.take_take 6 δ (placeholderChars m)
    rw [Nat.min_eq_left h6] at ht
    rw [← ht]
    exact List.take_prefix 6 _
  exact h1.trans h2.isInfix

/-- Offset copy of the reserved fragment near the head of a placeholder. -/
theorem strPat_shift_prefix (m δ : Nat) (h1 : 1 ≤ δ) (h2 : δ ≤ 2) :
    ∃ pre : List Char, pre.length + δ = 2 ∧
      (pre ++ strPat) <+: (placeholderChars m).drop δ := by
  interval_cases δ
  · exact ⟨['_'], rfl, ⟨natDigits m ++ ['_', '_'], by rw [placeholder_struct]; rfl⟩⟩
  · exact ⟨[], rfl, ⟨natDigits m ++ ['_', '_'], by rw [placeholder_struct]; rfl⟩⟩

/-- The reserved fragment survives dropping up to two characters of a
placeholder. -/
theorem strPat_infix_drop (m δ : Nat) (h2 : δ ≤ 2) :
    strPat <:+: (placeholderChars m).drop δ := by
  cases Nat.eq_zero_or_pos δ with
  | inl h => subst h; simpa using strPat_infix_placeholder m
  | inr h =>
    obtain ⟨pre, _, hpre⟩ := strPat_shift_prefix m δ h h2
    obtain ⟨t, ht⟩ := hpre
    exact ⟨pre, t, ht⟩

/-- Head characters of a placeholder. -/
theorem placeholder_getD_head (k : Nat) (d : Char) :
    (placeholderChars k).getD 0 d = '_' ∧ (placeholderChars k).getD 1 d = '_' ∧
    (placeholderChars k).getD 2 d = 'S' := by
  rw [placeholder_struct]
  exact ⟨rfl, rfl, rfl⟩

/-- A placeholder suffix missing one to five head characters never
begins at the start of another placeholder. -/
theorem midDead (m δ k2 : Nat) (Z : List Char) (hd1 : 1 ≤ δ) (hd5 : δ ≤ 5) :
    ((placeholderChars m).drop δ).isPrefixOf (placeholderChars k2 ++ Z) = false := by
  by_contra hcc
  rw [Bool.not_eq_false] at hcc
  have hlm := placeholder_length m
  have hlk := placeholder_length k2
  rcases isPrefixOf_append_split _ _ _ hcc with h' | ⟨heq, h'⟩
  · have hd0 := isPrefixOf_getD _ _ h' 0 (by rw [List.length_drop]; omega) '!'
    have hd1' := isPrefixOf_getD _ _ h' 1 (by rw [List.length_drop]; omega) '!'
    rw [getD_drop] at hd0 hd1'
    obtain ⟨hk0, hk1, _⟩ := placeholder_getD_head k2 '!'
    rw [hk0] at hd0
    rw [hk1] at hd1'
    rw [Nat.add_zero] at hd0
    exact placeholder_no_pair m δ hd1 hd5 '!' ⟨hd0.symm, hd1'.symm⟩
  · obtain ⟨_, _, hk2⟩ := placeholder_getD_head k2 '!'
    have h2 : (((placeholderChars m).drop δ).take (placeholderChars k2).length).getD 2 '!'
        = 'S' := by rw [← heq]; exact hk2
    rw [getD_take _ _ _ _ (by omega), getD_drop] at h2
    have := placeholder_S_unique m (δ + 2) (by omega) '!' h2
    omega

/-- No placeholder match can start strictly inside a reserved-fragment
free chunk that is followed by a placeholder. -/
theorem chunkPhDead (chunk : List Char) (hch : occurs strPat chunk = false)
    (m k2 : Nat) (Z : List Char) (i : Nat) (hi : i < chunk.length) :
    (placeholderChars m).isPrefixOf (chunk.drop i ++ (placeholderChars k2 ++ Z)) = false := by
  by_contra hcc
  rw [Bool.not_eq_false] at hcc
  rcases isPrefixOf_append_split _ _ _ hcc with h' | ⟨heq, h'⟩
  · exact occurs_false_not_sub _ _ hch
      ((strPat_infix_placeholder m).trans
        (sub_of_prefix_drop _ chunk i (List.isPrefixOf_iff_prefix.mp h')))
  · by_cases h6 : 6 ≤ (chunk.drop i).length
    · refine occurs_false_not_sub _ _ hch ?_
      have h1 : strPat <:+: (placeholderChars m).take (chunk.drop i).length :=
        strPat_infix_take m _ h6
      rw [← heq] at h1
      exact h1.trans (List.drop_suffix i chunk).isInfix
    · rw [midDead m (chunk.drop i).length k2 Z (by rw [List.length_drop]; omega)
        (by omega)] at h'
      exact Bool.false_ne_true h'

/-- A placeholder matching at the exact start of a different placeholder
forces equality of the indices. -/
theorem phAtPh (j k : Nat) (out2 : List Char) (hne : j ≠ k)
    (h : (placeholderChars j).isPrefixOf (placeholderChars k ++ out2) = true) : False := by
  rcases isPrefixOf_append_split _ _ _ h with h' | ⟨heq, _⟩
  · exact hne (placeholder_prefix_eq j k h')
  · refine hne (placeholder_prefix_eq k j ?_).symm
    rw [heq]
    exact List.isPrefixOf_iff_prefix.mpr (List.take_prefix _ _)

/-- No placeholder match can start strictly inside another placeholder,
provided short placeholder tails never begin the following text. -/
theorem insidePhDead (j k i2 : Nat) (out2 : List Char) (hi : 1 ≤ i2)
    (hlt : i2 < (placeholderChars k).length)
    (tailcond : ∀ δ, 1 ≤ δ → δ ≤ 2 →
      ((placeholderChars j).drop δ).isPrefixOf out2 = false) :
    (placeholderChars j).isPrefixOf ((placeholderChars k).drop i2 ++ out2) = false := by
  by_contra hcc
  rw [Bool.not_eq_false] at hcc
  have hlj := placeholder_length j
  have hlk := placeholder_length k
  rcases isPrefixOf_append_split _ _ _ hcc with h' | ⟨heq, h'⟩
  · have hb := isPrefixOf_length_le _ _ h'
    rw [List.length_drop] at hb
    have h2 := isPrefixOf_getD _ _ h' 2 (by omega) '!'
    rw [getD_drop] at h2
    obtain ⟨_, _, hS⟩ := placeholder_getD_head j '!'
    rw [hS] at h2
    have := placeholder_S_unique k (i2 + 2) (by omega) '!' h2
    omega
  · set δ := ((placeholderChars k).drop i2).length with hδdef
    have hδ : δ = (placeholderChars k).length - i2 := by rw [hδdef, List.length_drop]
    by_cases h3 : 3 ≤ δ
    · obtain ⟨_, _, hS⟩ := placeholder_getD_head j '!'
      have h2 : (((placeholderChars j).take δ).getD 2 '!')
          = ((placeholderChars k).drop i2).getD 2 '!' := by rw [← heq]
      rw [getD_take _ _ _ _ (by omega), getD_drop, hS] at h2
      have := placeholder_S_unique k (i2 + 2) (by omega) '!' h2.symm
      omega
    · rw [tailcond δ (by omega) (by omega)] at h'
      exact Bool.false_ne_true h'

/-- Relation between an input buffer, the shielded buffer and the
placeholder table, capturing all outputs of the shielding pass of
src/main.go lines 62-68 on reserved-fragment free input: the shielded
buffer alternates fragment-free chunks with placeholders of consecutive
indices, and the table records the quote-delimited literals in order. -/
inductive ShieldRel : Nat → List Char → List Char → List (List Char × List Char) → Prop
  | last : ∀ k chunk, occurs strPat chunk = false → ShieldRel k chunk chunk []
  | step : ∀ k chunk q content l out tab,
      (q = '"' ∨ q = squote) →
      occurs strPat chunk = false →
      occurs strPat content = false →
      ShieldRel (k + 1) l out tab →
      ShieldRel k (chunk ++ (q :: (content ++ q :: l)))
        (chunk ++ (placeholderChars k ++ out))
        ((placeholderChars k, q :: (content ++ [q])) :: tab)

/-- Prepending one character extends the leading chunk of the relation. -/
theorem shieldRel_cons (k : Nat) (c : Char) (l out : List Char)
    (tab : List (List Char × List Char))
    (hfree : occurs strPat (c :: l) = false)
    (h : ShieldRel k l out tab) : ShieldRel k (c :: l) (c :: out) tab := by
  cases h with
  | last hch => exact ShieldRel.last k _ hfree
  | step k2 chunk q content l' out' tab' hq hch hco hrel =>
    have hch2 : occurs strPat (c :: chunk) = false := by
      refine occurs_false_mono _ _ _ hfree ⟨[], q :: (content ++ q :: l'), ?_⟩
      rw [List.nil_append]
      rfl
    exact ShieldRel.step k (c :: chunk) q content l' out' tab' hq hch2 hco hrel

/-- A placeholder missing one or two head characters never begins at the
start of a shielded buffer. -/
theorem tailDead (k2 : Nat) (l2 out2 : List Char) (tab2 : List (List Char × List Char))
    (hrel : ShieldRel k2 l2 out2 tab2) (m δ : Nat) (h1 : 1 ≤ δ) (h2 : δ ≤ 2) :
    ((placeholderChars m).drop δ).isPrefixOf out2 = false := by
  have hlm := placeholder_length m
  by_contra hcc
  rw [Bool.not_eq_false] at hcc
  cases hrel with
  | last k3 chunk hch =>
    exact occurs_false_not_sub _ _ hch
      ((strPat_infix_drop m δ h2).trans
        (List.isPrefixOf_iff_prefix.mp hcc).isInfix)
  | step k3 chunk q content l' out' tab' hq hch hco hrel2 =>
    rcases isPrefixOf_append_split _ _ _ hcc with h' | ⟨heq, h'⟩
    · exact occurs_false_not_sub _ _ hch
        ((strPat_infix_drop m δ h2).trans (List.isPrefixOf_iff_prefix.mp h').isInfix)
    · set n := chunk.length with hn
      have hdd : ((placeholderChars m).drop δ).drop n = (placeholderChars m).drop (δ + n) := by
        rw [List.drop_drop]
      rw [hdd] at h'
      have hnle : n ≤ (placeholderChars m).length - δ := by
        have hlen := congrArg List.length heq
        rw [List.length_take, List.length_drop] at hlen
        omega
      by_cases h6 : 6 ≤ δ + n
      · obtain ⟨pre, hplen, hpre⟩ := strPat_shift_prefix m δ h1 h2
        have hp2 : (pre ++ strPat) <+: ((placeholderChars m).drop δ).take n := by
          refine prefix_take_of_le _ _ n hpre ?_
          rw [List.length_append]
          have h4 : strPat.length = 4 := rfl
          omega
        rw [← heq] at hp2
        obtain ⟨t, ht⟩ := hp2
        exact occurs_false_not_sub _ _ hch ⟨pre, t, ht⟩
      · rw [midDead m (δ + n) _ out' (by omega) (by omega)] at h'
        exact Bool.false_ne_true h'

/-- Placeholders with indices below the running counter never occur in
the shielded buffer. -/
theorem noPh (k : Nat) (l out : List Char) (tab : List (List Char × List Char))
    (hrel : ShieldRel k l out tab) :
    ∀ m, m < k → ∀ i, (placeholderChars m).isPrefixOf (out.drop i) = false := by
  induction hrel with
  | last k1 chunk hch =>
    intro m _ i
    by_contra hcc
    rw [Bool.not_eq_false] at hcc
    exact occurs_false_not_sub _ _ hch
      ((strPat_infix_placeholder m).trans
        (sub_of_prefix_drop _ chunk i (List.isPrefixOf_iff_prefix.mp hcc)))
  | step k1 chunk q content l' out' tab' hq hch hco hrel' ih =>
    intro m hm i
    by_cases hi1 : i < chunk.length
    · rw [List.drop_append_of_le_length (by omega)]
      exact chunkPhDead chunk hch m k1 out' i hi1
    · have hi2 : i = chunk.length + (i - chunk.length) := by omega
      rw [hi2, List.drop_append]
      by_cases hz : i - chunk.length = 0
      · rw [hz, List.drop_zero]
        by_contra hcc
        rw [Bool.not_eq_false] at hcc
        exact phAtPh m k1 out' (by omega) hcc
      · by_cases hp : i - chunk.length < (placeholderChars k1).length
        · rw [List.drop_append_of_le_length (by omega)]
          exact insidePhDead m k1 (i - chunk.length) out' (by omega) hp
            (fun δ hδ1 hδ2 => tailDead (k1 + 1) l' out' tab' hrel' m δ hδ1 hδ2)
        · have hi3 : i - chunk.length
              = (placeholderChars k1).length + (i - chunk.length - (placeholderChars k1).length) := by
            omega
          rw [hi3, List.drop_append]
          exact ih m (by omega) _

/-- The shielding scanner realises the shielding relation on
reserved-fragment free input. -/
theorem shieldStrings_rel : ∀ f k l out tab, shieldStrings f k l = some (out, tab) →
    occurs strPat l = false → ShieldRel k l out tab := by
  intro f
  induction f with
  | zero =>
    intro k l out tab h _
    rw [shieldStrings] at h
    exact absurd h (by simp)
  | succ f ih =>
    intro k l out tab h hfree
    cases l with
    | nil =>
      rw [shieldStrings] at h
      simp at h
      obtain ⟨h1, h2⟩ := h
      subst h1 h2
      exact ShieldRel.last k [] hfree
    | cons c rest =>
      rw [shieldStrings] at h
      split at h
      · rename_i hcq
        simp only [Bool.or_eq_true, decide_eq_true_eq] at hcq
        cases hsq : splitQuote c rest with
        | some p =>
          rw [hsq] at h
          obtain ⟨content, rem⟩ := p
          dsimp only at h
          cases hss : shieldStrings f (k + 1) rem with
          | none => rw [hss] at h; simp at h
          | some pr =>
            rw [hss] at h
            simp at h
            obtain ⟨h1, h2⟩ := h
            have hrest := splitQuote_eq c rest content rem hsq
            have hco : occurs strPat content = false :=
              occurs_false_mono _ _ _ hfree ⟨[c], c :: rem, by rw [hrest]; rfl⟩
            have hrem : occurs strPat rem = false :=
              occurs_false_mono _ _ _ hfree ⟨c :: content ++ [c], [], by rw [hrest]; simp⟩
            have hrel := ih (k + 1) rem pr.1 pr.2 hss hrem
            have hstep := ShieldRel.step k [] c content rem pr.1 pr.2 hcq rfl hco hrel
            rw [List.nil_append, List.nil_append] at hstep
            rw [hrest, ← h1, ← h2]
            exact hstep
        | none =>
          rw [hsq] at h
          dsimp only at h
          cases hss : shieldStrings f k rest with
          | none => rw [hss] at h; simp at h
          | some pr =>
            rw [hss] at h
            simp at h
            obtain ⟨h1, h2⟩ := h
            have hrest : occurs strPat rest = false :=
              occurs_false_mono _ _ _ hfree ⟨[c], [], by simp⟩
            have hrel := ih k rest pr.1 pr.2 hss hrest
            rw [← h1, ← h2]
            exact shieldRel_cons k c rest pr.1 pr.2 hfree hrel
      · cases hss : shieldStrings f k rest with
        | none => rw [hss] at h; simp at h
        | some pr =>
          rw [hss] at h
          simp at h
          obtain ⟨h1, h2⟩ := h
          have hrest : occurs strPat rest = false :=
            occurs_false_mono _ _ _ hfree ⟨[c], [], by simp⟩
          have hrel := ih k rest pr.1 pr.2 hss hrest
          rw [← h1, ← h2]
          exact shieldRel_cons k c rest pr.1 pr.2 hfree hrel

/-- `strings.Replace` passes over a prefix none of whose positions start
a match, whatever the replacement does later. -/
theorem replaceSub_frozen (pat repl : List Char) (hne : pat ≠ []) :
    ∀ (A Y : List Char) (f : Nat),
      (∀ i, i < A.length → pat.isPrefixOf (A.drop i ++ Y) = false) →
      replaceSub pat repl f (A ++ Y)
        = (replaceSub pat repl (f - A.length) Y).map (fun r => A ++ r) := by
  intro A
  induction A with
  | nil =>
    intro Y f _
    cases hv : replaceSub pat repl f Y <;> simp [hv]
  | cons a A' ihA =>
    intro Y f h
    cases f with
    | zero => simp [replaceSub]
    | succ f' =>
      rw [List.cons_append, replaceSub]
      have hie : pat.isEmpty = false := by
        cases hp : pat.isEmpty
        · rfl
        · exact absurd (List.isEmpty_iff.mp hp) hne
      have h0 := h 0 (by simp)
      rw [List.drop_zero, List.cons_append] at h0
      simp only [hie, h0, Bool.false_eq_true, if_false]
      rw [ihA Y f' (fun i hi => h (i + 1) (by simp; omega))]
      rw [show f' + 1 - (a :: A').length = f' - A'.length from by
        rw [List.length_cons]; omega]
      cases replaceSub pat repl (f' - A'.length) Y with
      | none => rfl
      | some v => rfl

/-- `strings.Replace` consumes a match at the head of the buffer. -/
theorem replaceSub_match (pat repl rest : List Char) (hne : pat ≠ []) (f : Nat) :
    replaceSub pat repl (f + 1) (pat ++ rest)
      = (replaceSub pat repl f rest).map (fun r => repl ++ r) := by
  cases pat with
  | nil => exact absurd rfl hne
  | cons p0 pat' =>
    rw [List.cons_append, replaceSub]
    have hie : (p0 :: pat').isEmpty = false := rfl
    have hpp : (p0 :: pat').isPrefixOf (p0 :: (pat' ++ rest)) = true :=
      List.isPrefixOf_iff_prefix.mpr ⟨rest, by rw [List.cons_append]⟩
    simp only [hie, hpp, Bool.false_eq_true, if_false, if_true]
    have hdrop : (p0 :: (pat' ++ rest)).drop (p0 :: pat').length = rest := by
      rw [List.length_cons]
      exact List.drop_left pat' rest
    rw [hdrop]

/-- `strings.Replace` is the identity on a buffer without occurrences. -/
theorem replaceSub_nooccur (pat repl : List Char) (hne : pat ≠ []) :
    ∀ (Y : List Char) (f : Nat), Y.length < f →
      (∀ i, pat.isPrefixOf (Y.drop i) = false) →
      replaceSub pat repl f Y = some Y := by
  intro Y
  induction Y with
  | nil =>
    intro f hf _
    cases f with
    | zero => omega
    | succ f' => rfl
  | cons c Y' ihY =>
    intro f hf h
    cases f with
    | zero => exact absurd hf (Nat.not_lt_zero _)
    | succ f' =>
      rw [replaceSub]
      have hie : pat.isEmpty = false := by
        cases hp : pat.isEmpty
        · rfl
        · exact absurd (List.isEmpty_iff.mp hp) hne
      have h0 := h 0
      rw [List.drop_zero] at h0
      simp only [hie, h0, Bool.false_eq_true, if_false]
      rw [ihY f' (by simp at hf ⊢; omega) (fun i => h (i + 1))]
      rfl

/-- Last character of a restored chunk-plus-literal block. -/
theorem block_last_char (chunk content : List Char) (q : Char) :
    (chunk ++ (q :: (content ++ [q]))).getD (chunk.length + content.length + 1) '!' = q := by
  rw [getD_append_right _ _ _ _ (by omega)]
  rw [show chunk.length + content.length + 1 - chunk.length = content.length + 1 from by omega]
  rw [List.getD_cons_succ]
  rw [getD_append_right _ _ _ _ (Nat.le_refl _)]
  rw [Nat.sub_self]
  rfl

/-- No placeholder match can start anywhere inside a restored block: the
block is reserved-fragment free except across its quotes, and it ends in
a quote character that no placeholder contains. -/
theorem blockDead (chunk content : List Char) (q : Char) (hq : q = '"' ∨ q = squote)
    (hch : occurs strPat chunk = false) (hco : occurs strPat content = false)
    (m : Nat) (i : Nat) (hi : i < (chunk ++ (q :: (content ++ [q]))).length) (X : List Char) :
    (placeholderChars m).isPrefixOf ((chunk ++ (q :: (content ++ [q]))).drop i ++ X) = false := by
  set A := chunk ++ (q :: (content ++ [q])) with hA
  by_contra hcc
  rw [Bool.not_eq_false] at hcc
  have hqs : q ∉ strPat := by
    rcases hq with h | h <;> subst h <;> decide
  have hsne : strPat ≠ [] := by decide
  rcases isPrefixOf_append_split _ _ _ hcc with h' | ⟨heq, h'⟩
  · have hin : strPat <:+: A :=
      (strPat_infix_placeholder m).trans
        (sub_of_prefix_drop _ A i (List.isPrefixOf_iff_prefix.mp h'))
    rw [hA] at hin
    rcases infix_split_at_char strPat chunk (content ++ [q]) q hqs hsne hin with hx | hy
    · exact occurs_false_not_sub _ _ hch hx
    · rcases infix_split_at_char strPat content [] q hqs hsne hy with hc | hnil
      · exact occurs_false_not_sub _ _ hco hc
      · exact hsne (List.eq_nil_of_infix_nil hnil)
  · set δ := (A.drop i).length with hδd
    have hδlen : δ = A.length - i := by rw [hδd, List.length_drop]
    have hδ1 : 1 ≤ δ := by omega
    have hδle : δ ≤ (placeholderChars m).length := by
      have hlen := congrArg List.length heq
      rw [List.length_take, List.length_drop] at hlen
      omega
    have hAlen : A.length = chunk.length + content.length + 2 := by
      rw [hA]
      simp
      omega
    have hlast : (A.drop i).getD (δ - 1) '!' = q := by
      rw [getD_drop]
      rw [show i + (δ - 1) = chunk.length + content.length + 1 from by omega]
      rw [hA]
      exact block_last_char chunk content q
    rw [heq] at hlast
    rw [getD_take _ _ _ _ (by omega)] at hlast
    have hmem := getD_mem (placeholderChars m) (δ - 1) '!' (by omega)
    rw [hlast] at hmem
    rcases hq with h | h
    · exact (placeholder_no_quote m q hmem).1 h
    · exact (placeholder_no_quote m q hmem).2 h

/-- Every key in the shielding table is a placeholder with index at
least the starting counter. -/
theorem shieldRel_keys (k : Nat) (l out : List Char) (tab : List (List Char × List Char))
    (hrel : ShieldRel k l out tab) :
    ∀ e ∈ tab, ∃ m, k ≤ m ∧ e.1 = placeholderChars m := by
  induction hrel with
  | last k1 chunk hch =>
    intro e he
    exact absurd he (List.not_mem_nil e)
  | step k1 chunk q content l' out' tab' hq hch hco hrel' ih =>
    intro e he
    rcases List.mem_cons.mp he with he | he
    · subst he
      exact ⟨k1, Nat.le_refl k1, rfl⟩
    · obtain ⟨m, hm, h1⟩ := ih e he
      exact ⟨m, by omega, h1⟩

/-- The restore loop passes unchanged over a prefix at whose positions
no table key can ever match. -/
theorem unshield_frozen (A : List Char) :
    ∀ (tab : List (List Char × List Char)) (Y : List Char),
      (∀ e ∈ tab, e.1 ≠ [] ∧ ∀ i, i < A.length → ∀ X,
        e.1.isPrefixOf (A.drop i ++ X) = false) →
      unshieldAll tab (A ++ Y) = (unshieldAll tab Y).map (fun r => A ++ r) := by
  intro tab
  induction tab with
  | nil => intro Y _; rfl
  | cons e tab' ihT =>
    intro Y h
    obtain ⟨p, lt⟩ := e
    have he := h (p, lt) (List.mem_cons_self _ _)
    rw [unshieldAll, unshieldAll]
    have hfz := replaceSub_frozen p lt he.1 A Y ((A ++ Y).length + 1)
      (fun i hi => he.2 i hi Y)
    rw [hfz]
    rw [show (A ++ Y).length + 1 - A.length = Y.length + 1 from by
      rw [List.length_append]; omega]
    cases replaceSub p lt (Y.length + 1) Y with
    | none => rfl
    | some y => exact ihT y (fun e2 he2 => h e2 (List.mem_cons_of_mem _ he2))

/-- Restoring all table entries on the shielded buffer reproduces the
original input buffer. -/
theorem shieldRel_unshield (k : Nat) (l out : List Char) (tab : List (List Char × List Char))
    (hrel : ShieldRel k l out tab) : unshieldAll tab out = some l := by
  induction hrel with
  | last k1 chunk hch => rfl
  | step k1 chunk q content l' out' tab' hq hch hco hrel' ih =>
    rw [unshieldAll]
    have hne : placeholderChars k1 ≠ [] := placeholder_ne_nil k1
    have h1 := replaceSub_frozen (placeholderChars k1) (q :: (content ++ [q])) hne chunk
      (placeholderChars k1 ++ out')
      ((chunk ++ (placeholderChars k1 ++ out')).length + 1)
      (fun i hi => chunkPhDead chunk hch k1 k1 out' i hi)
    rw [h1]
    rw [show (chunk ++ (placeholderChars k1 ++ out')).length + 1 - chunk.length
        = (placeholderChars k1).length + out'.length + 1 from by
      rw [List.length_append, List.length_append]; omega]
    have h3 := replaceSub_match (placeholderChars k1) (q :: (content ++ [q])) out' hne
      ((placeholderChars k1).length + out'.length)
    rw [h3]
    have h4 := replaceSub_nooccur (placeholderChars k1) (q :: (content ++ [q])) hne out'
      ((placeholderChars k1).length + out'.length)
      (by have := placeholder_length k1; omega)
      (fun i => noPh (k1 + 1) l' out' tab' hrel' k1 (by omega) i)
    rw [h4]
    have hcond : ∀ e ∈ tab', e.1 ≠ [] ∧ ∀ i,
        i < (chunk ++ (q :: (content ++ [q]))).length → ∀ X,
        e.1.isPrefixOf ((chunk ++ (q :: (content ++ [q]))).drop i ++ X) = false := by
      intro e he
      obtain ⟨m, _, hkey⟩ := shieldRel_keys (k1 + 1) l' out' tab' hrel' e he
      rw [hkey]
      exact ⟨placeholder_ne_nil m, fun i hi X => blockDead chunk content q hq hch hco m i hi X⟩
    have h5 := unshield_frozen (chunk ++ (q :: (content ++ [q]))) tab' out' hcond
    have hassoc : chunk ++ ((q :: (content ++ [q])) ++ out')
        = (chunk ++ (q :: (content ++ [q]))) ++ out' := (List.append_assoc _ _ _).symm
    rw [show (Option.map (fun r => chunk ++ r)
          (Option.map (fun r => (q :: (content ++ [q])) ++ r) (some out'))).bind
          (unshieldAll tab')
        = unshieldAll tab' ((chunk ++ (q :: (content ++ [q]))) ++ out') from by
      rw [← hassoc]; rfl]
    rw [h5, ih]
    simp

/-- Occurrence counting ignores a prefix at whose positions the pattern
never starts. -/
theorem countOcc_skip (pat U V : List Char)
    (h : ∀ i, i < U.length → pat.isPrefixOf ((U ++ V).drop i) = false) :
    countOcc pat (U ++ V) = countOcc pat V := by
  rw [countOcc, countOcc]
  rw [List.length_append]
  rw [show U.length + V.length + 1 = U.length + (V.length + 1) from by omega]
  rw [List.range_add]
  rw [List.filter_append]
  have h1 : (List.range U.length).filter (fun i => pat.isPrefixOf ((U ++ V).drop i)) = [] := by
    refine List.filter_eq_nil_iff.mpr ?_
    intro a ha
    rw [List.mem_range] at ha
    show ¬ (pat.isPrefixOf ((U ++ V).drop a) = true)
    rw [h a ha]
    exact Bool.false_ne_true
  rw [h1, List.nil_append]
  rw [List.filter_map]
  rw [List.length_map]
  congr 1
  refine List.filter_congr ?_
  intro a _
  show pat.isPrefixOf ((U ++ V).drop (U.length + a)) = pat.isPrefixOf (V.drop a)
  rw [List.drop_append]

/-- A buffer starting with the pattern, whose interior positions and
tail are match free, contains exactly one occurrence. -/
theorem countOcc_head (pat V : List Char) (_hne : pat ≠ [])
    (hint : ∀ i, 1 ≤ i → i < pat.length → pat.isPrefixOf ((pat ++ V).drop i) = false)
    (htail : ∀ j, pat.isPrefixOf (V.drop j) = false) :
    countOcc pat (pat ++ V) = 1 := by
  rw [countOcc]
  rw [List.length_append]
  rw [show pat.length + V.length + 1 = 1 + (pat.length + V.length) from by omega]
  rw [List.range_add, List.filter_append]
  have h0 : (List.range 1).filter (fun i => pat.isPrefixOf ((pat ++ V).drop i)) = [0] := by
    have hp : pat.isPrefixOf ((pat ++ V).drop 0) = true := by
      rw [List.drop_zero]
      exact List.isPrefixOf_iff_prefix.mpr ⟨V, rfl⟩
    rw [show List.range 1 = [0] from rfl]
    rw [List.filter_cons]
    rw [hp]
    rfl
  have h2 : ((List.range (pat.length + V.length)).map (fun x => 1 + x)).filter
      (fun i => pat.isPrefixOf ((pat ++ V).drop i)) = [] := by
    refine List.filter_eq_nil_iff.mpr ?_
    intro a ha
    simp only [List.mem_map, List.mem_range] at ha
    obtain ⟨x, hxlt, hx⟩ := ha
    subst hx
    show ¬ (pat.isPrefixOf ((pat ++ V).drop (1 + x)) = true)
    by_cases hc : 1 + x < pat.length
    · rw [hint (1 + x) (by omega) hc]
      exact Bool.false_ne_true
    · rw [show 1 + x = pat.length + (1 + x - pat.length) from by omega, List.drop_append,
        htail (1 + x - pat.length)]
      exact Bool.false_ne_true
  rw [h0, h2, List.append_nil]
  rfl

/-- Table keys are pairwise distinct. -/
theorem shieldRel_distinct (k : Nat) (l out : List Char) (tab : List (List Char × List Char))
    (hrel : ShieldRel k l out tab) : List.Pairwise (fun a b => a.1 ≠ b.1) tab := by
  induction hrel with
  | last k1 chunk hch => exact List.Pairwise.nil
  | step k1 chunk q content l' out' tab' hq hch hco hrel' ih =>
    refine List.pairwise_cons.mpr ⟨?_, ih⟩
    intro e he
    obtain ⟨m, hm, hkey⟩ := shieldRel_keys (k1 + 1) l' out' tab' hrel' e he
    rw [hkey]
    intro hcon
    exact absurd (placeholder_injective k1 m hcon) (by omega)

/-- Every table key occurs exactly once in the shielded buffer. -/
theorem shieldRel_count (k : Nat) (l out : List Char) (tab : List (List Char × List Char))
    (hrel : ShieldRel k l out tab) : ∀ e ∈ tab, countOcc e.1 out = 1 := by
  induction hrel with
  | last k1 chunk hch =>
    intro e he
    exact absurd he (List.not_mem_nil e)
  | step k1 chunk q content l' out' tab' hq hch hco hrel' ih =>
    intro e he
    rcases List.mem_cons.mp he with he | he
    · subst he
      show countOcc (placeholderChars k1) (chunk ++ (placeholderChars k1 ++ out')) = 1
      rw [countOcc_skip _ chunk _ (fun i hi => by
        rw [List.drop_append_of_le_length (by omega)]
        exact chunkPhDead chunk hch k1 k1 out' i hi)]
      exact countOcc_head _ out' (placeholder_ne_nil k1)
        (fun i h1i hilt => by
          rw [List.drop_append_of_le_length (by omega)]
          exact insidePhDead k1 k1 i out' h1i hilt
            (fun δ hδ1 hδ2 => tailDead (k1 + 1) l' out' tab' hrel' k1 δ hδ1 hδ2))
        (fun j => noPh (k1 + 1) l' out' tab' hrel' k1 (by omega) j)
    · obtain ⟨m, hm, hkey⟩ := shieldRel_keys (k1 + 1) l' out' tab' hrel' e he
      rw [hkey]
      rw [countOcc_skip _ chunk _ (fun i hi => by
        rw [List.drop_append_of_le_length (by omega)]
        exact chunkPhDead chunk hch m k1 out' i hi)]
      rw [countOcc_skip _ (placeholderChars k1) out' (fun i hi => by
        by_cases hz : i = 0
        · subst hz
          rw [List.drop_zero]
          by_contra hcc
          rw [Bool.not_eq_false] at hcc
          exact phAtPh m k1 out' (by omega) hcc
        · rw [List.drop_append_of_le_length (by omega)]
          exact insidePhDead m k1 i out' (by omega) hi
            (fun δ hδ1 hδ2 => tailDead (k1 + 1) l' out' tab' hrel' m δ hδ1 hδ2))]
      have hc := ih e he
      rw [hkey] at hc
      exact hc

/-- C2 (amended): on input free of the reserved fragment `STR_`, the
shielding pass of `shortenVariableNames` is inverted exactly by the
restore loop: running `strings.Replace` over the table entries on the
shielded buffer returns the original buffer, every literal restored
verbatim. -/
theorem shield_roundtrip (f k : Nat) (l out : List Char) (tab : List (List Char × List Char))
    (hfree : occurs strPat l = false)
    (h : shieldStrings f k l = some (out, tab)) :
    unshieldAll tab out = some l :=
  shieldRel_unshield k l out tab (shieldStrings_rel f k l out tab h hfree)

/-- Witness for claim C2 on the input `a="x";`. -/
theorem shield_roundtrip_witness :
    occurs strPat ("a=\"x\";" : String).data = false ∧
    shieldStrings (("a=\"x\";" : String).data.length + 1) 0 ("a=\"x\";" : String).data
      = some (("a=__STR_0__;" : String).data,
          [(("__STR_0__" : String).data, ("\"x\"" : String).data)]) ∧
    unshieldAll [(("__STR_0__" : String).data, ("\"x\"" : String).data)]
      ("a=__STR_0__;" : String).data = some ("a=\"x\";" : String).data :=
  ⟨by decide, by decide,
    shield_roundtrip (("a=\"x\";" : String).data.length + 1) 0 _ _ _ (by decide) (by decide)⟩

/-- C10 (amended): the placeholders recorded by the shielding pass are
pairwise distinct, and on input free of the reserved fragment `STR_`
each recorded placeholder occurs at exactly one position of the shielded
buffer, so each restore step substitutes exactly its own literal. -/
theorem shield_placeholders_unique (f k : Nat) (l out : List Char)
    (tab : List (List Char × List Char))
    (hfree : occurs strPat l = false)
    (h : shieldStrings f k l = some (out, tab)) :
    List.Pairwise (fun a b => a.1 ≠ b.1) tab ∧ ∀ e ∈ tab, countOcc e.1 out = 1 := by
  have hrel := shieldStrings_rel f k l out tab h hfree
  exact ⟨shieldRel_distinct k l out tab hrel, shieldRel_count k l out tab hrel⟩

/-- Witness for claim C10 on the input `a="x";b="y";`. -/
theorem shield_placeholders_unique_witness :
    occurs strPat ("a=\"x\";b=\"y\";" : String).data = false ∧
    shieldStrings (("a=\"x\";b=\"y\";" : String).data.length + 1) 0
        ("a=\"x\";b=\"y\";" : String).data
      = some (("a=__STR_0__;b=__STR_1__;" : String).data,
          [(("__STR_0__" : String).data, ("\"x\"" : String).data),
           (("__STR_1__" : String).data, ("\"y\"" : String).data)]) ∧
    (List.Pairwise (fun a b => a.1 ≠ b.1)
        [(("__STR_0__" : String).data, ("\"x\"" : String).data),
         (("__STR_1__" : String).data, ("\"y\"" : String).data)] ∧
      ∀ e ∈ [(("__STR_0__" : String).data, ("\"x\"" : String).data),
             (("__STR_1__" : String).data, ("\"y\"" : String).data)],
        countOcc e.1 ("a=__STR_0__;b=__STR_1__;" : String).data = 1) :=
  ⟨by decide, by decide,
    shield_placeholders_unique (("a=\"x\";b=\"y\";" : String).data.length + 1) 0
      ("a=\"x\";b=\"y\";" : String).data
      ("a=__STR_0__;b=__STR_1__;" : String).data
      [(("__STR_0__" : String).data, ("\"x\"" : String).data),
       (("__STR_1__" : String).data, ("\"y\"" : String).data)]
      (by decide) (by decide)⟩
